import Mathlib

set_option maxRecDepth 100000

/-!
Shallow embedding of the Simple8b time-series compression core
(`simple8b.cpp`): the Simple8b encoder/decoder over 64-bit words with
their fit checks and bit packing, and the companion in-place Delta and
ZigZag transforms, together with correctness theorems about them.

Machine integers are modelled as `Nat` with explicit `% 2 ^ 64`
truncation wherever the C code can wrap; buffers are `List Nat` of bit
patterns.  Unsigned 64-bit loop arithmetic (for the delta transform's
downward loop) is modelled with explicit wraparound, and the
out-of-bounds reads that the C code can perform are modelled by
`Option`-valued variants that return `none` where the C code would read
outside the buffer.
-/

def SIMPLE8B_SELECTOR_BITS : Nat := 4

/-- `WriteBits`: `*out = (*out << numBits) | value`, on `uint64_t`. -/
def WriteBits (out value numBits : Nat) : Nat :=
  ((out <<< numBits) % 2 ^ 64) ||| value

/-- `TryPackFast<numIntegers, numBitsPerInt>(n)`: for widths below 32,
checks that each of the first `numIntegers` values is below
`2 ^ numBitsPerInt`; wider schemes accept unconditionally. -/
def TryPackFast (numIntegers numBitsPerInt : Nat) (n : List Nat) : Bool :=
  if 32 ≤ numBitsPerInt then true
  else (n.take numIntegers).all (fun v => decide (v < 2 ^ numBitsPerInt))

/-- `TryPackCareful<numIntegers, numBitsPerInt>(n, maxIntegers)`:
like `TryPackFast` but first clamps the count to `maxIntegers`. -/
def TryPackCareful (numIntegers numBitsPerInt : Nat) (n : List Nat)
    (maxIntegers : Nat) : Bool :=
  if 32 ≤ numBitsPerInt then true
  else (n.take (min maxIntegers numIntegers)).all
    (fun v => decide (v < 2 ^ numBitsPerInt))

/-- `UnpackCareful<numBitsPerInt>(numIntegers, out, in)`: extracts
`numIntegers` fields of `numBitsPerInt` bits from word `x`, the k-th at
bit offset `64 - 4 - numBitsPerInt - k * numBitsPerInt`, masked to the
field width. -/
def UnpackCareful (numBitsPerInt numIntegers x : Nat) : List Nat :=
  (List.range numIntegers).map (fun k =>
    (x >>> (64 - SIMPLE8B_SELECTOR_BITS - numBitsPerInt - k * numBitsPerInt)))
    |>.map (fun v => v &&& (2 ^ numBitsPerInt - 1))

/-- `UnpackFast<numIntegers, numBitsPerInt>(out, in)`: same extraction
loop as `UnpackCareful`, with the count fixed by the scheme. -/
def UnpackFast (numIntegers numBitsPerInt x : Nat) : List Nat :=
  (List.range numIntegers).map (fun k =>
    (x >>> (64 - SIMPLE8B_SELECTOR_BITS - numBitsPerInt - k * numBitsPerInt)))
    |>.map (fun v => v &&& (2 ^ numBitsPerInt - 1))

/-- `GetSelectorNum`: top 4 bits of a packed word. -/
def GetSelectorNum (x : Nat) : Nat := x >>> (64 - SIMPLE8B_SELECTOR_BITS)

/-- One payload-carrying encoder branch: `out[0] = sel`, then
`WriteBits` for each value, then the final left shift
`out[0] <<= 64 - 4 - numBitsPerInt * count`. -/
def packWord (sel numBitsPerInt : Nat) (vs : List Nat) : Nat :=
  ((vs.foldl (fun acc v => WriteBits acc v numBitsPerInt) sel)
      <<< (64 - SIMPLE8B_SELECTOR_BITS - numBitsPerInt * vs.length)) % 2 ^ 64

/-- One iteration of the encoder's first (fast) loop, entered with at
least 240 values remaining: the selector cascade of `Simple8bEncode`.
Returns the emitted word and the number of values coded, or `none` for
the final (empty) `else` branch. -/
def fastStep (input : List Nat) : Option (Nat × Nat) :=
  if TryPackFast 120 0 input then
    if TryPackFast 120 0 (input.drop 120) then some (0, 240)
    else some (1 <<< (64 - SIMPLE8B_SELECTOR_BITS), 120)
  else if TryPackFast 60 1 input then some (packWord 2 1 (input.take 60), 60)
  else if TryPackFast 30 2 input then some (packWord 3 2 (input.take 30), 30)
  else if TryPackFast 20 3 input then some (packWord 4 3 (input.take 20), 20)
  else if TryPackFast 15 4 input then some (packWord 5 4 (input.take 15), 15)
  else if TryPackFast 12 5 input then some (packWord 6 5 (input.take 12), 12)
  else if TryPackFast 10 6 input then some (packWord 7 6 (input.take 10), 10)
  else if TryPackFast 8 7 input then some (packWord 8 7 (input.take 8), 8)
  else if TryPackFast 7 8 input then some (packWord 9 8 (input.take 7), 7)
  else if TryPackFast 6 10 input then some (packWord 10 10 (input.take 6), 6)
  else if TryPackFast 5 12 input then some (packWord 11 12 (input.take 5), 5)
  else if TryPackFast 4 15 input then some (packWord 12 15 (input.take 4), 4)
  else if TryPackFast 3 20 input then some (packWord 13 20 (input.take 3), 3)
  else if TryPackFast 2 30 input then some (packWord 14 30 (input.take 2), 2)
  else if TryPackFast 1 60 input then some (packWord 15 60 (input.take 1), 1)
  else none

/-- One iteration of the encoder's second (careful) loop; the remaining
count `ValuesRemaining` equals `input.length`.  Each branch clamps the
number of values coded to what remains. -/
def carefulStep (input : List Nat) : Option (Nat × Nat) :=
  if TryPackCareful 240 0 input input.length then
    some (0, min input.length 240)
  else if TryPackCareful 120 0 input input.length then
    some (1 <<< (64 - SIMPLE8B_SELECTOR_BITS), min input.length 120)
  else if TryPackCareful 60 1 input input.length then
    some (packWord 2 1 (input.take (min input.length 60)), min input.length 60)
  else if TryPackCareful 30 2 input input.length then
    some (packWord 3 2 (input.take (min input.length 30)), min input.length 30)
  else if TryPackCareful 20 3 input input.length then
    some (packWord 4 3 (input.take (min input.length 20)), min input.length 20)
  else if TryPackCareful 15 4 input input.length then
    some (packWord 5 4 (input.take (min input.length 15)), min input.length 15)
  else if TryPackCareful 12 5 input input.length then
    some (packWord 6 5 (input.take (min input.length 12)), min input.length 12)
  else if TryPackCareful 10 6 input input.length then
    some (packWord 7 6 (input.take (min input.length 10)), min input.length 10)
  else if TryPackCareful 8 7 input input.length then
    some (packWord 8 7 (input.take (min input.length 8)), min input.length 8)
  else if TryPackCareful 7 8 input input.length then
    some (packWord 9 8 (input.take (min input.length 7)), min input.length 7)
  else if TryPackCareful 6 10 input input.length then
    some (packWord 10 10 (input.take (min input.length 6)), min input.length 6)
  else if TryPackCareful 5 12 input input.length then
    some (packWord 11 12 (input.take (min input.length 5)), min input.length 5)
  else if TryPackCareful 4 15 input input.length then
    some (packWord 12 15 (input.take (min input.length 4)), min input.length 4)
  else if TryPackCareful 3 20 input input.length then
    some (packWord 13 20 (input.take (min input.length 3)), min input.length 3)
  else if TryPackCareful 2 30 input input.length then
    some (packWord 14 30 (input.take (min input.length 2)), min input.length 2)
  else if TryPackCareful 1 60 input input.length then
    some (packWord 15 60 (input.take (min input.length 1)), min input.length 1)
  else none

/-- The encoder's second loop: `while (ValuesRemaining > 0)`.  The fuel
argument bounds the iteration count; since every iteration codes at
least one value, fuel `input.length` is always sufficient. -/
def encodeCarefulGo : Nat → List Nat → List Nat
  | 0, _ => []
  | fuel + 1, input =>
    if input.isEmpty then []
    else
      match carefulStep input with
      | some (w, c) => w :: encodeCarefulGo fuel (input.drop c)
      | none => []

/-- The encoder's first loop: `while (ValuesRemaining >= 240)`, falling
through to the careful loop once fewer than 240 values remain. -/
def encodeFastGo : Nat → List Nat → List Nat
  | 0, _ => []
  | fuel + 1, input =>
    if 240 ≤ input.length then
      match fastStep input with
      | some (w, c) => w :: encodeFastGo fuel (input.drop c)
      | none => []
    else encodeCarefulGo (fuel + 1) input

/-- `Simple8bEncode(input, inputLength, out)`: returns the list of
packed words written (its length is the returned word count). -/
def Simple8bEncode (input : List Nat) : List Nat :=
  encodeFastGo input.length input

/-- The decoder's second loop: `while (end > out)`, i.e. while
`remaining > 0`; each selector unpacks `min(remaining, count)` values.
An input word stream that ends early is modelled by stopping (the C
code would read out of bounds there). -/
def decodeCarefulGo : Nat → List Nat → Nat → List Nat
  | 0, _, _ => []
  | fuel + 1, words, remaining =>
    if remaining = 0 then []
    else
      match words with
      | [] => []
      | x :: rest =>
        match GetSelectorNum x with
        | 0 => UnpackCareful 0 (min remaining 240) x ++
            decodeCarefulGo fuel rest (remaining - min remaining 240)
        | 1 => UnpackCareful 0 (min remaining 120) x ++
            decodeCarefulGo fuel rest (remaining - min remaining 120)
        | 2 => UnpackCareful 1 (min remaining 60) x ++
            decodeCarefulGo fuel rest (remaining - min remaining 60)
        | 3 => UnpackCareful 2 (min remaining 30) x ++
            decodeCarefulGo fuel rest (remaining - min remaining 30)
        | 4 => UnpackCareful 3 (min remaining 20) x ++
            decodeCarefulGo fuel rest (remaining - min remaining 20)
        | 5 => UnpackCareful 4 (min remaining 15) x ++
            decodeCarefulGo fuel rest (remaining - min remaining 15)
        | 6 => UnpackCareful 5 (min remaining 12) x ++
            decodeCarefulGo fuel rest (remaining - min remaining 12)
        | 7 => UnpackCareful 6 (min remaining 10) x ++
            decodeCarefulGo fuel rest (remaining - min remaining 10)
        | 8 => UnpackCareful 7 (min remaining 8) x ++
            decodeCarefulGo fuel rest (remaining - min remaining 8)
        | 9 => UnpackCareful 8 (min remaining 7) x ++
            decodeCarefulGo fuel rest (remaining - min remaining 7)
        | 10 => UnpackCareful 10 (min remaining 6) x ++
            decodeCarefulGo fuel rest (remaining - min remaining 6)
        | 11 => UnpackCareful 12 (min remaining 5) x ++
            decodeCarefulGo fuel rest (remaining - min remaining 5)
        | 12 => UnpackCareful 15 (min remaining 4) x ++
            decodeCarefulGo fuel rest (remaining - min remaining 4)
        | 13 => UnpackCareful 20 (min remaining 3) x ++
            decodeCarefulGo fuel rest (remaining - min remaining 3)
        | 14 => UnpackCareful 30 (min remaining 2) x ++
            decodeCarefulGo fuel rest (remaining - min remaining 2)
        | 15 => UnpackCareful 60 1 x ++
            decodeCarefulGo fuel rest (remaining - 1)
        | _ => []

/-- The decoder's first loop: `while (end > out + 240)`, i.e. while
`remaining > 240`, unpacking each scheme's full count without bounds
checks, then falling through to the careful loop. -/
def decodeFastGo : Nat → List Nat → Nat → List Nat
  | 0, _, _ => []
  | fuel + 1, words, remaining =>
    if 240 < remaining then
      match words with
      | [] => []
      | x :: rest =>
        match GetSelectorNum x with
        | 0 => UnpackFast 240 0 x ++ decodeFastGo fuel rest (remaining - 240)
        | 1 => UnpackFast 120 0 x ++ decodeFastGo fuel rest (remaining - 120)
        | 2 => UnpackFast 60 1 x ++ decodeFastGo fuel rest (remaining - 60)
        | 3 => UnpackFast 30 2 x ++ decodeFastGo fuel rest (remaining - 30)
        | 4 => UnpackFast 20 3 x ++ decodeFastGo fuel rest (remaining - 20)
        | 5 => UnpackFast 15 4 x ++ decodeFastGo fuel rest (remaining - 15)
        | 6 => UnpackFast 12 5 x ++ decodeFastGo fuel rest (remaining - 12)
        | 7 => UnpackFast 10 6 x ++ decodeFastGo fuel rest (remaining - 10)
        | 8 => UnpackFast 8 7 x ++ decodeFastGo fuel rest (remaining - 8)
        | 9 => UnpackFast 7 8 x ++ decodeFastGo fuel rest (remaining - 7)
        | 10 => UnpackFast 6 10 x ++ decodeFastGo fuel rest (remaining - 6)
        | 11 => UnpackFast 5 12 x ++ decodeFastGo fuel rest (remaining - 5)
        | 12 => UnpackFast 4 15 x ++ decodeFastGo fuel rest (remaining - 4)
        | 13 => UnpackFast 3 20 x ++ decodeFastGo fuel rest (remaining - 3)
        | 14 => UnpackFast 2 30 x ++ decodeFastGo fuel rest (remaining - 2)
        | 15 => UnpackFast 1 60 x ++ decodeFastGo fuel rest (remaining - 1)
        | _ => []
    else decodeCarefulGo (fuel + 1) words remaining

/-- `Simple8bDecode(input, uncompressedLength, out)`: returns the list
of values written (its length is the returned value count). -/
def Simple8bDecode (input : List Nat) (uncompressedLength : Nat) : List Nat :=
  decodeFastGo uncompressedLength input uncompressedLength

/-- 64-bit wraparound addition (two's-complement `+` on `int64_t`). -/
def Add64 (a b : Nat) : Nat := (a + b) % 2 ^ 64

/-- 64-bit wraparound subtraction (two's-complement `-` on `int64_t`). -/
def Sub64 (a b : Nat) : Nat := (a + 2 ^ 64 - b) % 2 ^ 64

/-- The body of `DeltaEncode`'s loop `for (i = length - 1; i > 0; i--)
input[i] = input[i] - input[i - 1]`, parameterised by the initial loop
index. -/
def deltaEncLoop : List Nat → Nat → List Nat
  | input, 0 => input
  | input, i + 1 =>
    deltaEncLoop (input.set (i + 1) (Sub64 (input.getD (i + 1) 0) (input.getD i 0))) i

/-- `DeltaEncode(input, length)` with `length = input.length ≥ 1` (the
well-defined regime; see `DeltaEncodeU64` for the raw `uint64_t` loop
counter). -/
def DeltaEncode (input : List Nat) : List Nat :=
  deltaEncLoop input (input.length - 1)

/-- The body of `DeltaDecode`'s loop `for (i = 1; i < length; i++)
input[i] = input[i] + input[i - 1]`; the fuel is the number of
remaining iterations, `length - i`. -/
def deltaDecLoop : List Nat → Nat → Nat → List Nat
  | input, _, 0 => input
  | input, i, fuel + 1 =>
    deltaDecLoop (input.set i (Add64 (input.getD i 0) (input.getD (i - 1) 0))) (i + 1) fuel

/-- `DeltaDecode(input, length)` with `length = input.length`. -/
def DeltaDecode (input : List Nat) : List Nat :=
  deltaDecLoop input 1 (input.length - 1)

/-- `DeltaEncode`'s loop with the buffer accesses bounds-checked:
`none` models the out-of-bounds read the C code performs when the loop
index falls outside the buffer (the body reads indices `i` and `i - 1`,
so in-bounds means the loop index is below the length). -/
def deltaEncLoopChecked : List Nat → Nat → Option (List Nat)
  | input, 0 => some input
  | input, i + 1 =>
    if i + 1 < input.length then
      deltaEncLoopChecked
        (input.set (i + 1) (Sub64 (input.getD (i + 1) 0) (input.getD i 0))) i
    else none

/-- `DeltaEncode(input, length)` with the loop counter modelled as the
`uint64_t` it is in the source: the initial index is `(length - 1)`
computed with 64-bit wraparound, so `length = 0` underflows to
`2 ^ 64 - 1`. -/
def DeltaEncodeU64 (input : List Nat) (length : Nat) : Option (List Nat) :=
  deltaEncLoopChecked input ((length + (2 ^ 64 - 1)) % 2 ^ 64)

/-- Arithmetic (sign-extending) right shift of a 64-bit two's-complement
pattern, as `>>` behaves on a negative `int64_t`. -/
def Asr64 (p s : Nat) : Nat :=
  if p < 2 ^ 63 then p >>> s else (p >>> s) + (2 ^ 64 - 2 ^ (64 - s))

/-- 64-bit two's-complement negation: the pattern of `-a`. -/
def Neg64 (a : Nat) : Nat := (2 ^ 64 - a) % 2 ^ 64

/-- One element of `ZigZagEncode` on `int64_t`:
`(input[i] << 1) ^ (input[i] >> 63)` with wraparound shift left and
arithmetic shift right. -/
def zigZagEncodeElem (p : Nat) : Nat :=
  ((p <<< 1) % 2 ^ 64) ^^^ Asr64 p 63

/-- `ZigZagEncode(input, length)` with `length = input.length`. -/
def ZigZagEncode (input : List Nat) : List Nat := input.map zigZagEncodeElem

/-- One element of `ZigZagDecode` on `int64_t`:
`(input[i] >> 1) ^ -(input[i] & 1)`; the shift is the arithmetic shift
of the signed type. -/
def zigZagDecodeElem (p : Nat) : Nat :=
  Asr64 p 1 ^^^ Neg64 (p &&& 1)

/-- `ZigZagDecode(input, length)` with `length = input.length`. -/
def ZigZagDecode (input : List Nat) : List Nat := input.map zigZagDecodeElem

/-- The careful encoder loop instrumented with the input cursor: each
emitted word is recorded as `(start position, values coded, word)`. -/
def encodeCarefulGoT : Nat → List Nat → Nat → List (Nat × Nat × Nat)
  | 0, _, _ => []
  | fuel + 1, input, pos =>
    if input.isEmpty then []
    else
      match carefulStep input with
      | some (w, c) => (pos, c, w) :: encodeCarefulGoT fuel (input.drop c) (pos + c)
      | none => []

/-- The fast encoder loop instrumented with the input cursor. -/
def encodeFastGoT : Nat → List Nat → Nat → List (Nat × Nat × Nat)
  | 0, _, _ => []
  | fuel + 1, input, pos =>
    if 240 ≤ input.length then
      match fastStep input with
      | some (w, c) => (pos, c, w) :: encodeFastGoT fuel (input.drop c) (pos + c)
      | none => []
    else encodeCarefulGoT (fuel + 1) input pos

/-- `Simple8bEncode` with each word annotated by the input position it
covers and the number of values it codes. -/
def Simple8bEncodeTrace (input : List Nat) : List (Nat × Nat × Nat) :=
  encodeFastGoT input.length input 0

/-- The selector table: the `(count, width)` scheme of each 4-bit
selector code, as hard-wired in the encoder's branch cascade and the
decoder's `switch`. -/
def schemeOf : Nat → Option (Nat × Nat)
  | 0 => some (240, 0)
  | 1 => some (120, 0)
  | 2 => some (60, 1)
  | 3 => some (30, 2)
  | 4 => some (20, 3)
  | 5 => some (15, 4)
  | 6 => some (12, 5)
  | 7 => some (10, 6)
  | 8 => some (8, 7)
  | 9 => some (7, 8)
  | 10 => some (6, 10)
  | 11 => some (5, 12)
  | 12 => some (4, 15)
  | 13 => some (3, 20)
  | 14 => some (2, 30)
  | 15 => some (1, 60)
  | _ => none

/-- The fourteen payload-carrying schemes `(selector, count, width)`,
in the order the encoder tries them after the two zero-run schemes. -/
def fastSchemes : List (Nat × Nat × Nat) :=
  [(2, 60, 1), (3, 30, 2), (4, 20, 3), (5, 15, 4), (6, 12, 5), (7, 10, 6),
   (8, 8, 7), (9, 7, 8), (10, 6, 10), (11, 5, 12), (12, 4, 15), (13, 3, 20),
   (14, 2, 30), (15, 1, 60)]

/-! ### Arithmetic form of the bit packer

`valNat w vs` is the integer whose base-`2 ^ w` digits are the values
of `vs`, most significant first: the payload bits that the encoder's
`WriteBits` loop accumulates. -/

def valNat (w : Nat) (vs : List Nat) : Nat :=
  vs.foldl (fun a v => a * 2 ^ w + v) 0

theorem valNat_foldl (w : Nat) :
    ∀ (vs : List Nat) (a : Nat),
      vs.foldl (fun x v => x * 2 ^ w + v) a = a * 2 ^ (w * vs.length) + valNat w vs := by
  intro vs
  induction vs with
  | nil => intro a; simp [valNat]
  | cons v vs ih =>
    intro a
    have hv : valNat w (v :: vs) = v * 2 ^ (w * vs.length) + valNat w vs := by
      have : valNat w (v :: vs) = vs.foldl (fun x v => x * 2 ^ w + v) v := by
        simp [valNat]
      rw [this, ih v]
    rw [List.foldl_cons, ih (a * 2 ^ w + v), hv]
    have hpow : (2 : Nat) ^ (w * (v :: vs).length) = 2 ^ w * 2 ^ (w * vs.length) := by
      rw [← pow_add]
      congr 1
      simp [List.length_cons]
      ring
    rw [hpow]
    ring

theorem valNat_cons (w v : Nat) (vs : List Nat) :
    valNat w (v :: vs) = v * 2 ^ (w * vs.length) + valNat w vs := by
  have : valNat w (v :: vs) = vs.foldl (fun x v => x * 2 ^ w + v) v := by
    simp [valNat]
  rw [this, valNat_foldl]

theorem valNat_snoc (w v : Nat) (vs : List Nat) :
    valNat w (vs ++ [v]) = valNat w vs * 2 ^ w + v := by
  simp [valNat, List.foldl_append]

theorem valNat_lt (w : Nat) :
    ∀ vs : List Nat, (∀ v ∈ vs, v < 2 ^ w) → valNat w vs < 2 ^ (w * vs.length) := by
  intro vs
  induction vs with
  | nil => intro _; simp [valNat]
  | cons v vs ih =>
    intro h
    rw [valNat_cons]
    have hv : v < 2 ^ w := h v (List.mem_cons_self v vs)
    have hV : valNat w vs < 2 ^ (w * vs.length) := ih (fun x hx => h x (List.mem_cons_of_mem v hx))
    have hpow : (2 : Nat) ^ (w * (v :: vs).length) = 2 ^ w * 2 ^ (w * vs.length) := by
      rw [← pow_add]
      congr 1
      simp [List.length_cons]
      ring
    rw [hpow]
    calc v * 2 ^ (w * vs.length) + valNat w vs
        < v * 2 ^ (w * vs.length) + 2 ^ (w * vs.length) := by omega
      _ = (v + 1) * 2 ^ (w * vs.length) := by ring
      _ ≤ 2 ^ w * 2 ^ (w * vs.length) := by
          exact Nat.mul_le_mul_right _ (by omega)

theorem valNat_extract (w : Nat) :
    ∀ vs : List Nat, (∀ v ∈ vs, v < 2 ^ w) →
      ∀ k, k < vs.length →
        valNat w vs / 2 ^ (w * (vs.length - 1 - k)) % 2 ^ w = vs.getD k 0 := by
  intro vs
  induction vs using List.reverseRecOn with
  | nil => intro _ k hk; simp at hk
  | append_singleton vs v ih =>
    intro h k hk
    rw [valNat_snoc]
    have hv : v < 2 ^ w := h v (by simp)
    rcases Nat.lt_or_ge k vs.length with hlt | hge
    · have hexp : vs.length + 1 - 1 - k = (vs.length - 1 - k) + 1 := by omega
      rw [List.length_append, List.length_singleton, hexp]
      have hsplit : (2 : Nat) ^ (w * ((vs.length - 1 - k) + 1)) =
          2 ^ w * 2 ^ (w * (vs.length - 1 - k)) := by
        rw [← pow_add]
        congr 1
        ring
      rw [hsplit, ← Nat.div_div_eq_div_mul]
      have hdiv : (valNat w vs * 2 ^ w + v) / 2 ^ w = valNat w vs := by
        rw [mul_comm (valNat w vs), Nat.mul_add_div (Nat.two_pow_pos w)]
        simp [Nat.div_eq_of_lt hv]
      rw [hdiv]
      have hg : (vs ++ [v]).getD k 0 = vs.getD k 0 := by
        simp [List.getD_eq_getElem?_getD, List.getElem?_append_left hlt]
      rw [hg]
      exact ih (fun x hx => h x (by simp [hx])) k hlt
    · have hk' : k = vs.length := by
        rw [List.length_append, List.length_singleton] at hk
        omega
      subst hk'
      have hexp : vs.length + 1 - 1 - vs.length = 0 := by omega
      rw [List.length_append, List.length_singleton, hexp]
      simp only [pow_zero, mul_zero, Nat.div_one]
      rw [Nat.add_comm (valNat w vs * 2 ^ w) v, Nat.add_mul_mod_self_right,
        Nat.mod_eq_of_lt hv]
      simp [List.getD_eq_getElem?_getD, List.getElem?_concat_length]

theorem foldl_WriteBits (w : Nat) :
    ∀ (vs : List Nat) (a : Nat), (∀ v ∈ vs, v < 2 ^ w) →
      (a + 1) * 2 ^ (w * vs.length) ≤ 2 ^ 64 →
      vs.foldl (fun acc v => WriteBits acc v w) a = a * 2 ^ (w * vs.length) + valNat w vs := by
  intro vs
  induction vs with
  | nil => intro a _ _; simp [valNat]
  | cons v vs ih =>
    intro a h hbound
    have hv : v < 2 ^ w := h v (List.mem_cons_self v vs)
    have hpow : (2 : Nat) ^ (w * (v :: vs).length) = 2 ^ w * 2 ^ (w * vs.length) := by
      rw [← pow_add]
      congr 1
      simp [List.length_cons]
      ring
    have hshift : a <<< w = a * 2 ^ w := Nat.shiftLeft_eq a w
    have hlt : a * 2 ^ w < 2 ^ 64 := by
      have h1 : (a + 1) * 2 ^ w ≤ (a + 1) * 2 ^ w * 2 ^ (w * vs.length) := by
        have := Nat.two_pow_pos (w * vs.length)
        exact Nat.le_mul_of_pos_right _ this
      have h2 : (a + 1) * 2 ^ w * 2 ^ (w * vs.length) ≤ 2 ^ 64 := by
        rw [mul_assoc, ← hpow]
        exact hbound
      have h3 : a * 2 ^ w < (a + 1) * 2 ^ w := by
        have := Nat.two_pow_pos w
        exact Nat.mul_lt_mul_of_lt_of_le (by omega) (le_refl _) this
      omega
    have hWB : WriteBits a v w = a * 2 ^ w + v := by
      unfold WriteBits
      rw [hshift, Nat.mod_eq_of_lt hlt, mul_comm a (2 ^ w),
        ← Nat.mul_add_lt_is_or hv, mul_comm (2 ^ w) a]
    rw [List.foldl_cons, hWB, ih (a * 2 ^ w + v)
      (fun x hx => h x (List.mem_cons_of_mem v hx))
      (by
        have hstep : (a * 2 ^ w + v + 1) ≤ (a + 1) * 2 ^ w := by
          have : v + 1 ≤ 2 ^ w := hv
          calc a * 2 ^ w + v + 1 = a * 2 ^ w + (v + 1) := by ring
            _ ≤ a * 2 ^ w + 2 ^ w := by omega
            _ = (a + 1) * 2 ^ w := by ring
        calc (a * 2 ^ w + v + 1) * 2 ^ (w * vs.length)
            ≤ (a + 1) * 2 ^ w * 2 ^ (w * vs.length) :=
              Nat.mul_le_mul_right _ hstep
          _ = (a + 1) * 2 ^ (w * (v :: vs).length) := by rw [mul_assoc, ← hpow]
          _ ≤ 2 ^ 64 := hbound), valNat_cons, hpow]
    ring

theorem packWord_lt (sel w : Nat) (vs : List Nat) : packWord sel w vs < 2 ^ 64 := by
  unfold packWord
  exact Nat.mod_lt _ (Nat.two_pow_pos 64)

theorem packWord_eq (sel w : Nat) (vs : List Nat) (hsel : sel < 16)
    (hv : ∀ v ∈ vs, v < 2 ^ w) (hlen : w * vs.length ≤ 60) :
    packWord sel w vs =
      (sel * 2 ^ (w * vs.length) + valNat w vs) * 2 ^ (60 - w * vs.length) := by
  have hB : vs.foldl (fun acc v => WriteBits acc v w) sel =
      sel * 2 ^ (w * vs.length) + valNat w vs := by
    apply foldl_WriteBits w vs sel hv
    have h16 : sel + 1 ≤ 2 ^ 4 := by omega
    calc (sel + 1) * 2 ^ (w * vs.length) ≤ 2 ^ 4 * 2 ^ (w * vs.length) :=
        Nat.mul_le_mul_right _ h16
      _ = 2 ^ (4 + w * vs.length) := by rw [pow_add]
      _ ≤ 2 ^ 64 := Nat.pow_le_pow_right (by omega) (by omega)
  have hBlt : sel * 2 ^ (w * vs.length) + valNat w vs < 2 ^ (4 + w * vs.length) := by
    have hV := valNat_lt w vs hv
    have : sel * 2 ^ (w * vs.length) + valNat w vs < (sel + 1) * 2 ^ (w * vs.length) := by
      have := Nat.two_pow_pos (w * vs.length)
      calc sel * 2 ^ (w * vs.length) + valNat w vs
          < sel * 2 ^ (w * vs.length) + 2 ^ (w * vs.length) := by omega
        _ = (sel + 1) * 2 ^ (w * vs.length) := by ring
    calc sel * 2 ^ (w * vs.length) + valNat w vs
        < (sel + 1) * 2 ^ (w * vs.length) := this
      _ ≤ 2 ^ 4 * 2 ^ (w * vs.length) := Nat.mul_le_mul_right _ (by omega)
      _ = 2 ^ (4 + w * vs.length) := by rw [pow_add]
  unfold packWord SIMPLE8B_SELECTOR_BITS
  rw [hB, Nat.shiftLeft_eq]
  have hexp : 64 - 4 - w * vs.length = 60 - w * vs.length := by omega
  rw [hexp]
  apply Nat.mod_eq_of_lt
  calc (sel * 2 ^ (w * vs.length) + valNat w vs) * 2 ^ (60 - w * vs.length)
      < 2 ^ (4 + w * vs.length) * 2 ^ (60 - w * vs.length) :=
        Nat.mul_lt_mul_of_lt_of_le hBlt (le_refl _) (Nat.two_pow_pos _)
    _ = 2 ^ (4 + w * vs.length + (60 - w * vs.length)) := by rw [← pow_add]
    _ = 2 ^ 64 := by congr 1; omega

theorem GetSelectorNum_packWord (sel w : Nat) (vs : List Nat) (hsel : sel < 16)
    (hv : ∀ v ∈ vs, v < 2 ^ w) (hlen : w * vs.length ≤ 60) :
    GetSelectorNum (packWord sel w vs) = sel := by
  unfold GetSelectorNum SIMPLE8B_SELECTOR_BITS
  rw [packWord_eq sel w vs hsel hv hlen, Nat.shiftRight_eq_div_pow]
  have hexp : (64 : Nat) - 4 = 60 := by omega
  rw [hexp]
  have hsplit : (2 : Nat) ^ 60 = 2 ^ (60 - w * vs.length) * 2 ^ (w * vs.length) := by
    rw [← pow_add]
    congr 1
    omega
  rw [hsplit, ← Nat.div_div_eq_div_mul,
    Nat.mul_div_cancel _ (Nat.two_pow_pos (60 - w * vs.length)),
    mul_comm sel (2 ^ (w * vs.length)), Nat.mul_add_div (Nat.two_pow_pos _),
    Nat.div_eq_of_lt (valNat_lt w vs hv)]
  exact Nat.add_zero sel

theorem UnpackCareful_length (w n x : Nat) : (UnpackCareful w n x).length = n := by
  simp [UnpackCareful]

theorem UnpackCareful_packWord (sel w : Nat) (vs : List Nat) (hsel : sel < 16)
    (hv : ∀ v ∈ vs, v < 2 ^ w) (hlen : w * vs.length ≤ 60) :
    UnpackCareful w vs.length (packWord sel w vs) = vs := by
  apply List.ext_getElem
  · simp [UnpackCareful]
  intro k hk1 hk2
  have hk : k < vs.length := hk2
  simp only [UnpackCareful, SIMPLE8B_SELECTOR_BITS, List.getElem_map, List.getElem_range]
  rw [Nat.and_pow_two_sub_one_eq_mod, Nat.shiftRight_eq_div_pow]
  have hk1n : k + 1 ≤ vs.length := hk
  have hmul1 : w * (k + 1) ≤ w * vs.length := Nat.mul_le_mul_left w hk1n
  have hsum : w * vs.length = w * (k + 1) + w * (vs.length - 1 - k) := by
    rw [← Nat.mul_add]
    congr 1
    omega
  have hoff : 64 - 4 - w - k * w = 60 - w * (k + 1) := by
    have : w + k * w = w * (k + 1) := by ring
    omega
  rw [hoff, packWord_eq sel w vs hsel hv hlen]
  have hsplit : (2 : Nat) ^ (60 - w * (k + 1)) =
      2 ^ (60 - w * vs.length) * 2 ^ (w * (vs.length - 1 - k)) := by
    rw [← pow_add]
    congr 1
    omega
  rw [hsplit, ← Nat.div_div_eq_div_mul,
    Nat.mul_div_cancel _ (Nat.two_pow_pos (60 - w * vs.length))]
  have hB : sel * 2 ^ (w * vs.length) + valNat w vs =
      valNat w vs + sel * 2 ^ (w * k) * 2 ^ w * 2 ^ (w * (vs.length - 1 - k)) := by
    have h1 : (2 : Nat) ^ (w * vs.length) =
        2 ^ (w * k) * 2 ^ w * 2 ^ (w * (vs.length - 1 - k)) := by
      rw [← pow_add, ← pow_add]
      congr 1
    rw [h1]
    ring
  rw [hB, Nat.add_mul_div_right _ _ (Nat.two_pow_pos (w * (vs.length - 1 - k))),
    Nat.add_mul_mod_self_right, valNat_extract w vs hv k hk]
  simp [List.getD_eq_getElem?_getD, List.getElem?_eq_getElem hk]

theorem UnpackCareful_zero_width (n x : Nat) :
    UnpackCareful 0 n x = List.replicate n 0 := by
  apply List.eq_replicate_iff.mpr
  constructor
  · simp [UnpackCareful]
  · intro b hb
    simp only [UnpackCareful, List.mem_map] at hb
    obtain ⟨y, _, hy⟩ := hb
    simp at hy
    exact hy.symm


theorem UnpackFast_eq_careful (c w x : Nat) : UnpackFast c w x = UnpackCareful w c x := rfl

/-! ### Fit checks and encoder steps -/

theorem TryPackFast_true {k w : Nat} {input : List Nat} (hw : w < 32)
    (h : TryPackFast k w input = true) : ∀ v ∈ input.take k, v < 2 ^ w := by
  unfold TryPackFast at h
  rw [if_neg (by omega)] at h
  intro v hv
  exact of_decide_eq_true (List.all_eq_true.mp h v hv)

theorem TryPackCareful_true {k w m : Nat} {input : List Nat} (hw : w < 32)
    (h : TryPackCareful k w input m = true) : ∀ v ∈ input.take (min m k), v < 2 ^ w := by
  unfold TryPackCareful at h
  rw [if_neg (by omega)] at h
  intro v hv
  exact of_decide_eq_true (List.all_eq_true.mp h v hv)

theorem fastStep_isSome (input : List Nat) : (fastStep input).isSome = true := by
  have h60 : TryPackFast 1 60 input = true := rfl
  unfold fastStep
  rw [h60]
  simp [apply_ite Option.isSome]

theorem carefulStep_isSome (input : List Nat) : (carefulStep input).isSome = true := by
  have h60 : TryPackCareful 1 60 input input.length = true := rfl
  unfold carefulStep
  rw [h60]
  simp [apply_ite Option.isSome]

theorem fastSchemes_ok : ∀ t ∈ fastSchemes,
    t.1 < 16 ∧ 1 ≤ t.2.1 ∧ t.2.1 ≤ 240 ∧ 1 ≤ t.2.2 ∧ t.2.2 * t.2.1 ≤ 60 ∧
    schemeOf t.1 = some (t.2.1, t.2.2) := by decide

/-- Exhaustive case analysis of one fast-loop encoder step: either one
of the two zero-run branches fired, or one of the fourteen payload
branches did. -/
theorem fastStep_eq_some_cases {input : List Nat} {word c : Nat}
    (h : fastStep input = some (word, c)) :
    (word = 0 ∧ c = 240 ∧ TryPackFast 120 0 input = true ∧
      TryPackFast 120 0 (input.drop 120) = true) ∨
    (word = 1 <<< (64 - SIMPLE8B_SELECTOR_BITS) ∧ c = 120 ∧
      TryPackFast 120 0 input = true) ∨
    (∃ sel k w, (sel, k, w) ∈ fastSchemes ∧
      word = packWord sel w (input.take k) ∧ c = k ∧
      TryPackFast k w input = true) := by
  unfold fastStep at h
  by_cases h1 : TryPackFast 120 0 input = true
  · rw [if_pos h1] at h
    by_cases h2 : TryPackFast 120 0 (input.drop 120) = true
    · rw [if_pos h2] at h
      injection h with h'
      injection h' with hw hc
      exact Or.inl ⟨hw.symm, hc.symm, h1, h2⟩
    rw [if_neg h2] at h
    injection h with h'
    injection h' with hw hc
    exact Or.inr (Or.inl ⟨hw.symm, hc.symm, h1⟩)
  rw [if_neg h1] at h
  by_cases h2 : TryPackFast 60 1 input = true
  · rw [if_pos h2] at h
    injection h with h'
    injection h' with hw hc
    exact Or.inr (Or.inr ⟨2, 60, 1, by decide, hw.symm, hc.symm, h2⟩)
  rw [if_neg h2] at h
  by_cases h3 : TryPackFast 30 2 input = true
  · rw [if_pos h3] at h
    injection h with h'
    injection h' with hw hc
    exact Or.inr (Or.inr ⟨3, 30, 2, by decide, hw.symm, hc.symm, h3⟩)
  rw [if_neg h3] at h
  by_cases h4 : TryPackFast 20 3 input = true
  · rw [if_pos h4] at h
    injection h with h'
    injection h' with hw hc
    exact Or.inr (Or.inr ⟨4, 20, 3, by decide, hw.symm, hc.symm, h4⟩)
  rw [if_neg h4] at h
  by_cases h5 : TryPackFast 15 4 input = true
  · rw [if_pos h5] at h
    injection h with h'
    injection h' with hw hc
    exact Or.inr (Or.inr ⟨5, 15, 4, by decide, hw.symm, hc.symm, h5⟩)
  rw [if_neg h5] at h
  by_cases h6 : TryPackFast 12 5 input = true
  · rw [if_pos h6] at h
    injection h with h'
    injection h' with hw hc
    exact Or.inr (Or.inr ⟨6, 12, 5, by decide, hw.symm, hc.symm, h6⟩)
  rw [if_neg h6] at h
  by_cases h7 : TryPackFast 10 6 input = true
  · rw [if_pos h7] at h
    injection h with h'
    injection h' with hw hc
    exact Or.inr (Or.inr ⟨7, 10, 6, by decide, hw.symm, hc.symm, h7⟩)
  rw [if_neg h7] at h
  by_cases h8 : TryPackFast 8 7 input = true
  · rw [if_pos h8] at h
    injection h with h'
    injection h' with hw hc
    exact Or.inr (Or.inr ⟨8, 8, 7, by decide, hw.symm, hc.symm, h8⟩)
  rw [if_neg h8] at h
  by_cases h9 : TryPackFast 7 8 input = true
  · rw [if_pos h9] at h
    injection h with h'
    injection h' with hw hc
    exact Or.inr (Or.inr ⟨9, 7, 8, by decide, hw.symm, hc.symm, h9⟩)
  rw [if_neg h9] at h
  by_cases h10 : TryPackFast 6 10 input = true
  · rw [if_pos h10] at h
    injection h with h'
    injection h' with hw hc
    exact Or.inr (Or.inr ⟨10, 6, 10, by decide, hw.symm, hc.symm, h10⟩)
  rw [if_neg h10] at h
  by_cases h11 : TryPackFast 5 12 input = true
  · rw [if_pos h11] at h
    injection h with h'
    injection h' with hw hc
    exact Or.inr (Or.inr ⟨11, 5, 12, by decide, hw.symm, hc.symm, h11⟩)
  rw [if_neg h11] at h
  by_cases h12 : TryPackFast 4 15 input = true
  · rw [if_pos h12] at h
    injection h with h'
    injection h' with hw hc
    exact Or.inr (Or.inr ⟨12, 4, 15, by decide, hw.symm, hc.symm, h12⟩)
  rw [if_neg h12] at h
  by_cases h13 : TryPackFast 3 20 input = true
  · rw [if_pos h13] at h
    injection h with h'
    injection h' with hw hc
    exact Or.inr (Or.inr ⟨13, 3, 20, by decide, hw.symm, hc.symm, h13⟩)
  rw [if_neg h13] at h
  by_cases h14 : TryPackFast 2 30 input = true
  · rw [if_pos h14] at h
    injection h with h'
    injection h' with hw hc
    exact Or.inr (Or.inr ⟨14, 2, 30, by decide, hw.symm, hc.symm, h14⟩)
  rw [if_neg h14] at h
  by_cases h15 : TryPackFast 1 60 input = true
  · rw [if_pos h15] at h
    injection h with h'
    injection h' with hw hc
    exact Or.inr (Or.inr ⟨15, 1, 60, by decide, hw.symm, hc.symm, h15⟩)
  rw [if_neg h15] at h
  exact Option.noConfusion h

/-- Exhaustive case analysis of one careful-loop encoder step. -/
theorem carefulStep_eq_some_cases {input : List Nat} {word c : Nat}
    (h : carefulStep input = some (word, c)) :
    (word = 0 ∧ c = min input.length 240 ∧
      TryPackCareful 240 0 input input.length = true) ∨
    (word = 1 <<< (64 - SIMPLE8B_SELECTOR_BITS) ∧ c = min input.length 120 ∧
      TryPackCareful 120 0 input input.length = true) ∨
    (∃ sel k w, (sel, k, w) ∈ fastSchemes ∧
      word = packWord sel w (input.take (min input.length k)) ∧
      c = min input.length k ∧
      TryPackCareful k w input input.length = true) := by
  unfold carefulStep at h
  by_cases h1 : TryPackCareful 240 0 input input.length = true
  · rw [if_pos h1] at h
    injection h with h'
    injection h' with hw hc
    exact Or.inl ⟨hw.symm, hc.symm, h1⟩
  rw [if_neg h1] at h
  by_cases h2 : TryPackCareful 120 0 input input.length = true
  · rw [if_pos h2] at h
    injection h with h'
    injection h' with hw hc
    exact Or.inr (Or.inl ⟨hw.symm, hc.symm, h2⟩)
  rw [if_neg h2] at h
  by_cases h3 : TryPackCareful 60 1 input input.length = true
  · rw [if_pos h3] at h
    injection h with h'
    injection h' with hw hc
    exact Or.inr (Or.inr ⟨2, 60, 1, by decide, hw.symm, hc.symm, h3⟩)
  rw [if_neg h3] at h
  by_cases h4 : TryPackCareful 30 2 input input.length = true
  · rw [if_pos h4] at h
    injection h with h'
    injection h' with hw hc
    exact Or.inr (Or.inr ⟨3, 30, 2, by decide, hw.symm, hc.symm, h4⟩)
  rw [if_neg h4] at h
  by_cases h5 : TryPackCareful 20 3 input input.length = true
  · rw [if_pos h5] at h
    injection h with h'
    injection h' with hw hc
    exact Or.inr (Or.inr ⟨4, 20, 3, by decide, hw.symm, hc.symm, h5⟩)
  rw [if_neg h5] at h
  by_cases h6 : TryPackCareful 15 4 input input.length = true
  · rw [if_pos h6] at h
    injection h with h'
    injection h' with hw hc
    exact Or.inr (Or.inr ⟨5, 15, 4, by decide, hw.symm, hc.symm, h6⟩)
  rw [if_neg h6] at h
  by_cases h7 : TryPackCareful 12 5 input input.length = true
  · rw [if_pos h7] at h
    injection h with h'
    injection h' with hw hc
    exact Or.inr (Or.inr ⟨6, 12, 5, by decide, hw.symm, hc.symm, h7⟩)
  rw [if_neg h7] at h
  by_cases h8 : TryPackCareful 10 6 input input.length = true
  · rw [if_pos h8] at h
    injection h with h'
    injection h' with hw hc
    exact Or.inr (Or.inr ⟨7, 10, 6, by decide, hw.symm, hc.symm, h8⟩)
  rw [if_neg h8] at h
  by_cases h9 : TryPackCareful 8 7 input input.length = true
  · rw [if_pos h9] at h
    injection h with h'
    injection h' with hw hc
    exact Or.inr (Or.inr ⟨8, 8, 7, by decide, hw.symm, hc.symm, h9⟩)
  rw [if_neg h9] at h
  by_cases h10 : TryPackCareful 7 8 input input.length = true
  · rw [if_pos h10] at h
    injection h with h'
    injection h' with hw hc
    exact Or.inr (Or.inr ⟨9, 7, 8, by decide, hw.symm, hc.symm, h10⟩)
  rw [if_neg h10] at h
  by_cases h11 : TryPackCareful 6 10 input input.length = true
  · rw [if_pos h11] at h
    injection h with h'
    injection h' with hw hc
    exact Or.inr (Or.inr ⟨10, 6, 10, by decide, hw.symm, hc.symm, h11⟩)
  rw [if_neg h11] at h
  by_cases h12 : TryPackCareful 5 12 input input.length = true
  · rw [if_pos h12] at h
    injection h with h'
    injection h' with hw hc
    exact Or.inr (Or.inr ⟨11, 5, 12, by decide, hw.symm, hc.symm, h12⟩)
  rw [if_neg h12] at h
  by_cases h13 : TryPackCareful 4 15 input input.length = true
  · rw [if_pos h13] at h
    injection h with h'
    injection h' with hw hc
    exact Or.inr (Or.inr ⟨12, 4, 15, by decide, hw.symm, hc.symm, h13⟩)
  rw [if_neg h13] at h
  by_cases h14 : TryPackCareful 3 20 input input.length = true
  · rw [if_pos h14] at h
    injection h with h'
    injection h' with hw hc
    exact Or.inr (Or.inr ⟨13, 3, 20, by decide, hw.symm, hc.symm, h14⟩)
  rw [if_neg h14] at h
  by_cases h15 : TryPackCareful 2 30 input input.length = true
  · rw [if_pos h15] at h
    injection h with h'
    injection h' with hw hc
    exact Or.inr (Or.inr ⟨14, 2, 30, by decide, hw.symm, hc.symm, h15⟩)
  rw [if_neg h15] at h
  by_cases h16 : TryPackCareful 1 60 input input.length = true
  · rw [if_pos h16] at h
    injection h with h'
    injection h' with hw hc
    exact Or.inr (Or.inr ⟨15, 1, 60, by decide, hw.symm, hc.symm, h16⟩)
  rw [if_neg h16] at h
  exact Option.noConfusion h

theorem GetSelectorNum_lt {x : Nat} (hx : x < 2 ^ 64) : GetSelectorNum x < 16 := by
  unfold GetSelectorNum SIMPLE8B_SELECTOR_BITS
  rw [Nat.shiftRight_eq_div_pow]
  have h : (64 : Nat) - 4 = 60 := by norm_num
  rw [h]
  have h16 : (16 : Nat) * 2 ^ 60 = 2 ^ 64 := by norm_num
  exact Nat.div_lt_of_lt_mul (by omega)

theorem GetSelectorNum_zero : GetSelectorNum 0 = 0 := rfl

theorem GetSelectorNum_one_word :
    GetSelectorNum (1 <<< (64 - SIMPLE8B_SELECTOR_BITS)) = 1 := by decide

theorem fastSchemes_wide : ∀ t ∈ fastSchemes, 32 ≤ t.2.2 → t.2.2 = 60 := by decide

/-- Decoding one careful-loop iteration on a cons cell, phrased through
the selector table. -/
theorem decodeCarefulGo_cons (fuel x : Nat) (rest : List Nat) (r : Nat)
    (hx : x < 2 ^ 64) (hr : 1 ≤ r) :
    ∃ k w, schemeOf (GetSelectorNum x) = some (k, w) ∧
      decodeCarefulGo (fuel + 1) (x :: rest) r =
        UnpackCareful w (min r k) x ++ decodeCarefulGo fuel rest (r - min r k) := by
  have hsel : GetSelectorNum x < 16 := GetSelectorNum_lt hx
  have hr0 : ¬(r = 0) := by omega
  obtain ⟨s, hs⟩ : ∃ s, GetSelectorNum x = s := ⟨_, rfl⟩
  rw [hs] at hsel
  interval_cases s
  · exact ⟨240, 0, by rw [hs]; decide, by simp [decodeCarefulGo, hs, hr0]⟩
  · exact ⟨120, 0, by rw [hs]; decide, by simp [decodeCarefulGo, hs, hr0]⟩
  · exact ⟨60, 1, by rw [hs]; decide, by simp [decodeCarefulGo, hs, hr0]⟩
  · exact ⟨30, 2, by rw [hs]; decide, by simp [decodeCarefulGo, hs, hr0]⟩
  · exact ⟨20, 3, by rw [hs]; decide, by simp [decodeCarefulGo, hs, hr0]⟩
  · exact ⟨15, 4, by rw [hs]; decide, by simp [decodeCarefulGo, hs, hr0]⟩
  · exact ⟨12, 5, by rw [hs]; decide, by simp [decodeCarefulGo, hs, hr0]⟩
  · exact ⟨10, 6, by rw [hs]; decide, by simp [decodeCarefulGo, hs, hr0]⟩
  · exact ⟨8, 7, by rw [hs]; decide, by simp [decodeCarefulGo, hs, hr0]⟩
  · exact ⟨7, 8, by rw [hs]; decide, by simp [decodeCarefulGo, hs, hr0]⟩
  · exact ⟨6, 10, by rw [hs]; decide, by simp [decodeCarefulGo, hs, hr0]⟩
  · exact ⟨5, 12, by rw [hs]; decide, by simp [decodeCarefulGo, hs, hr0]⟩
  · exact ⟨4, 15, by rw [hs]; decide, by simp [decodeCarefulGo, hs, hr0]⟩
  · exact ⟨3, 20, by rw [hs]; decide, by simp [decodeCarefulGo, hs, hr0]⟩
  · exact ⟨2, 30, by rw [hs]; decide, by simp [decodeCarefulGo, hs, hr0]⟩
  · refine ⟨1, 60, by rw [hs]; decide, ?_⟩
    have h1 : min r 1 = 1 := by omega
    rw [h1]
    simp [decodeCarefulGo, hs, hr0]

/-- Decoding one fast-loop iteration on a cons cell, phrased through
the selector table. -/
theorem decodeFastGo_cons (fuel x : Nat) (rest : List Nat) (r : Nat)
    (hx : x < 2 ^ 64) (hr : 240 < r) :
    ∃ k w, schemeOf (GetSelectorNum x) = some (k, w) ∧
      decodeFastGo (fuel + 1) (x :: rest) r =
        UnpackFast k w x ++ decodeFastGo fuel rest (r - k) := by
  have hsel : GetSelectorNum x < 16 := GetSelectorNum_lt hx
  obtain ⟨s, hs⟩ : ∃ s, GetSelectorNum x = s := ⟨_, rfl⟩
  rw [hs] at hsel
  interval_cases s
  · exact ⟨240, 0, by rw [hs]; decide, by simp [decodeFastGo, hs, hr]⟩
  · exact ⟨120, 0, by rw [hs]; decide, by simp [decodeFastGo, hs, hr]⟩
  · exact ⟨60, 1, by rw [hs]; decide, by simp [decodeFastGo, hs, hr]⟩
  · exact ⟨30, 2, by rw [hs]; decide, by simp [decodeFastGo, hs, hr]⟩
  · exact ⟨20, 3, by rw [hs]; decide, by simp [decodeFastGo, hs, hr]⟩
  · exact ⟨15, 4, by rw [hs]; decide, by simp [decodeFastGo, hs, hr]⟩
  · exact ⟨12, 5, by rw [hs]; decide, by simp [decodeFastGo, hs, hr]⟩
  · exact ⟨10, 6, by rw [hs]; decide, by simp [decodeFastGo, hs, hr]⟩
  · exact ⟨8, 7, by rw [hs]; decide, by simp [decodeFastGo, hs, hr]⟩
  · exact ⟨7, 8, by rw [hs]; decide, by simp [decodeFastGo, hs, hr]⟩
  · exact ⟨6, 10, by rw [hs]; decide, by simp [decodeFastGo, hs, hr]⟩
  · exact ⟨5, 12, by rw [hs]; decide, by simp [decodeFastGo, hs, hr]⟩
  · exact ⟨4, 15, by rw [hs]; decide, by simp [decodeFastGo, hs, hr]⟩
  · exact ⟨3, 20, by rw [hs]; decide, by simp [decodeFastGo, hs, hr]⟩
  · exact ⟨2, 30, by rw [hs]; decide, by simp [decodeFastGo, hs, hr]⟩
  · exact ⟨1, 60, by rw [hs]; decide, by simp [decodeFastGo, hs, hr]⟩

/-- A payload word built by a scheme branch carries its selector and
unpacks to the values that were packed. -/
theorem branch_decode {sel k w : Nat} {input : List Nat} (n : Nat)
    (hmem : (sel, k, w) ∈ fastSchemes) (hn : n ≤ k) (hnlen : n ≤ input.length)
    (hv : ∀ v ∈ input.take n, v < 2 ^ w) :
    GetSelectorNum (packWord sel w (input.take n)) = sel ∧
    UnpackCareful w n (packWord sel w (input.take n)) = input.take n := by
  obtain ⟨hsel, hk1, hk240, hw1, hkw, hscheme⟩ := fastSchemes_ok _ hmem
  have hlen : (input.take n).length = n := by
    rw [List.length_take]
    omega
  have hwn : w * (input.take n).length ≤ 60 := by
    rw [hlen]
    calc w * n ≤ w * k := Nat.mul_le_mul_left w hn
      _ ≤ 60 := hkw
  refine ⟨GetSelectorNum_packWord sel w _ hsel hv hwn, ?_⟩
  have h := UnpackCareful_packWord sel w (input.take n) hsel hv hwn
  rw [hlen] at h
  exact h

theorem take_eq_replicate_of_lt_one {input : List Nat} {n : Nat}
    (hn : n ≤ input.length) (h : ∀ v ∈ input.take n, v < 2 ^ 0) :
    input.take n = List.replicate n 0 := by
  apply List.eq_replicate_iff.mpr
  refine ⟨by rw [List.length_take]; omega, ?_⟩
  intro v hv
  have := h v hv
  simp only [pow_zero] at this
  omega

theorem fastStep_bounds {input : List Nat} {word c : Nat}
    (h : fastStep input = some (word, c)) : 1 ≤ c ∧ c ≤ 240 := by
  rcases fastStep_eq_some_cases h with ⟨_, hc, _⟩ | ⟨_, hc, _⟩ |
    ⟨sel, k, w, hmem, _, hc, _⟩
  · omega
  · omega
  · have := fastSchemes_ok _ hmem
    simp only at this
    omega

theorem carefulStep_bounds {input : List Nat} {word c : Nat} (hne : input ≠ [])
    (h : carefulStep input = some (word, c)) : 1 ≤ c ∧ c ≤ input.length := by
  have hlen : 0 < input.length := List.length_pos.mpr hne
  rcases carefulStep_eq_some_cases h with ⟨_, hc, _⟩ | ⟨_, hc, _⟩ |
    ⟨sel, k, w, hmem, _, hc, _⟩
  · omega
  · omega
  · have := fastSchemes_ok _ hmem
    simp only at this
    omega

/-- A fast-loop encoder step emits a word whose selector scheme counts
exactly the values coded, and which unpacks to the chunk consumed. -/
theorem fastStep_decode {input : List Nat} {word c : Nat}
    (h240 : 240 ≤ input.length) (hin : ∀ v ∈ input, v < 2 ^ 60)
    (hs : fastStep input = some (word, c)) :
    word < 2 ^ 64 ∧ 1 ≤ c ∧ c ≤ 240 ∧
      ∃ w, schemeOf (GetSelectorNum word) = some (c, w) ∧
        UnpackCareful w c word = input.take c := by
  obtain ⟨hc1, hc240⟩ := fastStep_bounds hs
  rcases fastStep_eq_some_cases hs with ⟨hword, hc, ht1, ht2⟩ | ⟨hword, hc, ht1⟩ |
    ⟨sel, k, w, hmem, hword, hc, hfit⟩
  · subst hword hc
    refine ⟨by norm_num, by norm_num, by norm_num, 0, ?_, ?_⟩
    · rw [GetSelectorNum_zero]
      decide
    · rw [UnpackCareful_zero_width]
      symm
      apply take_eq_replicate_of_lt_one (by omega)
      have h1 := TryPackFast_true (by norm_num) ht1
      have h2 := TryPackFast_true (by norm_num) ht2
      intro v hv
      rw [show (240 : Nat) = 120 + 120 by norm_num, List.take_add] at hv
      rcases List.mem_append.mp hv with hv1 | hv2
      · exact h1 v hv1
      · exact h2 v hv2
  · subst hword hc
    refine ⟨by decide, by norm_num, by norm_num, 0, ?_, ?_⟩
    · rw [GetSelectorNum_one_word]
      decide
    · rw [UnpackCareful_zero_width]
      symm
      exact take_eq_replicate_of_lt_one (by omega) (TryPackFast_true (by norm_num) ht1)
  · subst hword hc
    have hklen : c ≤ input.length := by omega
    have hv : ∀ v ∈ input.take c, v < 2 ^ w := by
      rcases Nat.lt_or_ge w 32 with hw32 | hw32
      · exact TryPackFast_true hw32 hfit
      · have hw60 : w = 60 := fastSchemes_wide _ hmem hw32
        subst hw60
        intro v hv
        exact hin v (List.take_subset _ _ hv)
    obtain ⟨hgsel, hunpack⟩ := branch_decode c hmem (le_refl c) hklen hv
    refine ⟨packWord_lt _ _ _, hc1, hc240, w, ?_, hunpack⟩
    rw [hgsel]
    exact (fastSchemes_ok _ hmem).2.2.2.2.2

/-- A careful-loop encoder step emits a word whose selector scheme,
clamped to the remaining count, covers exactly the values coded, and
which unpacks to the chunk consumed. -/
theorem carefulStep_decode {input : List Nat} {word c : Nat} (hne : input ≠ [])
    (hin : ∀ v ∈ input, v < 2 ^ 60) (hs : carefulStep input = some (word, c)) :
    word < 2 ^ 64 ∧ 1 ≤ c ∧ c ≤ input.length ∧
      ∃ k w, schemeOf (GetSelectorNum word) = some (k, w) ∧
        c = min input.length k ∧ UnpackCareful w c word = input.take c := by
  obtain ⟨hc1, hclen⟩ := carefulStep_bounds hne hs
  rcases carefulStep_eq_some_cases hs with ⟨hword, hc, ht⟩ | ⟨hword, hc, ht⟩ |
    ⟨sel, k, w, hmem, hword, hc, hfit⟩
  · subst hword
    refine ⟨by norm_num, hc1, hclen, 240, 0, ?_, hc, ?_⟩
    · rw [GetSelectorNum_zero]
      decide
    · subst hc
      rw [UnpackCareful_zero_width]
      symm
      exact take_eq_replicate_of_lt_one (by omega) (TryPackCareful_true (by norm_num) ht)
  · subst hword
    refine ⟨by decide, hc1, hclen, 120, 0, ?_, hc, ?_⟩
    · rw [GetSelectorNum_one_word]
      decide
    · subst hc
      rw [UnpackCareful_zero_width]
      symm
      exact take_eq_replicate_of_lt_one (by omega) (TryPackCareful_true (by norm_num) ht)
  · subst hword
    have hv : ∀ v ∈ input.take (min input.length k), v < 2 ^ w := by
      rcases Nat.lt_or_ge w 32 with hw32 | hw32
      · exact TryPackCareful_true hw32 hfit
      · have hw60 : w = 60 := fastSchemes_wide _ hmem hw32
        subst hw60
        intro v hv
        exact hin v (List.take_subset _ _ hv)
    obtain ⟨hgsel, hunpack⟩ := branch_decode (min input.length k) hmem
      (min_le_right _ _) (min_le_left _ _) hv
    subst hc
    refine ⟨packWord_lt _ _ _, hc1, hclen, k, w, ?_, rfl, hunpack⟩
    rw [hgsel]
    exact (fastSchemes_ok _ hmem).2.2.2.2.2

/-! ### Loop unfolding helpers -/

theorem encodeCarefulGo_nil (f : Nat) : encodeCarefulGo f [] = [] := by
  cases f with
  | zero => rfl
  | succ g => simp [encodeCarefulGo]

theorem encodeFastGo_nil (f : Nat) : encodeFastGo f [] = [] := by
  cases f with
  | zero => rfl
  | succ g => simp [encodeFastGo, encodeCarefulGo]

theorem decodeCarefulGo_zero_rem (f : Nat) (ws : List Nat) :
    decodeCarefulGo f ws 0 = [] := by
  cases f with
  | zero => rfl
  | succ g => simp [decodeCarefulGo]

theorem decodeFastGo_zero_rem (f : Nat) (ws : List Nat) :
    decodeFastGo f ws 0 = [] := by
  cases f with
  | zero => rfl
  | succ g => simp [decodeFastGo, decodeCarefulGo]

theorem encodeCarefulGo_cons_eq {input : List Nat} (hne : input ≠ []) (f : Nat)
    {word c : Nat} (hstep : carefulStep input = some (word, c)) :
    encodeCarefulGo (f + 1) input = word :: encodeCarefulGo f (input.drop c) := by
  have hemp : input.isEmpty = false := by
    cases input with
    | nil => exact absurd rfl hne
    | cons a as => rfl
  simp [encodeCarefulGo, hemp, hstep]

theorem encodeFastGo_cons_eq {input : List Nat} (h240 : 240 ≤ input.length) (f : Nat)
    {word c : Nat} (hstep : fastStep input = some (word, c)) :
    encodeFastGo (f + 1) input = word :: encodeFastGo f (input.drop c) := by
  simp only [encodeFastGo, hstep]
  rw [if_pos h240]

theorem encodeFastGo_eq_careful {input : List Nat} (hlt : input.length < 240) (f : Nat) :
    encodeFastGo (f + 1) input = encodeCarefulGo (f + 1) input := by
  simp only [encodeFastGo]
  rw [if_neg (by omega)]

theorem decodeFastGo_eq_careful (fuel : Nat) (ws : List Nat) (r : Nat) (hr : r ≤ 240) :
    decodeFastGo fuel ws r = decodeCarefulGo fuel ws r := by
  cases fuel with
  | zero => rfl
  | succ f =>
    simp only [decodeFastGo]
    rw [if_neg (by omega)]

/-! ### The round trip -/

/-- Careful-loop round trip: decoding the careful encoder's words with
the matching remaining count reproduces the input, for any sufficient
fuels. -/
theorem decode_encode_careful :
    ∀ len : Nat, ∀ input : List Nat, input.length = len →
      (∀ v ∈ input, v < 2 ^ 60) →
      ∀ f1 f2 : Nat, len ≤ f1 → len ≤ f2 →
        decodeCarefulGo f1 (encodeCarefulGo f2 input) len = input := by
  intro len
  induction len using Nat.strong_induction_on with
  | _ len ih =>
    intro input hlen hv f1 f2 hf1 hf2
    rcases Nat.eq_zero_or_pos len with h0 | hpos
    · subst h0
      have hnil : input = [] := List.length_eq_zero.mp hlen
      subst hnil
      rw [encodeCarefulGo_nil, decodeCarefulGo_zero_rem]
    · have hne : input ≠ [] := by
        intro h
        subst h
        simp at hlen
        omega
      obtain ⟨f1', rfl⟩ : ∃ g, f1 = g + 1 := ⟨f1 - 1, by omega⟩
      obtain ⟨f2', rfl⟩ : ∃ g, f2 = g + 1 := ⟨f2 - 1, by omega⟩
      obtain ⟨⟨word, c⟩, hstep⟩ := Option.isSome_iff_exists.mp (carefulStep_isSome input)
      obtain ⟨hwlt, hc1, hcle, k, w, hscheme, hcmin, hunpack⟩ :=
        carefulStep_decode hne hv hstep
      have henc := encodeCarefulGo_cons_eq hne f2' hstep
      obtain ⟨k', w', hscheme', hdec⟩ :=
        decodeCarefulGo_cons f1' word (encodeCarefulGo f2' (input.drop c)) len hwlt
          (by omega)
      rw [hscheme] at hscheme'
      injection hscheme' with h'
      injection h' with hk hw
      subst hk hw
      have hmin : min len k = c := by
        rw [hlen] at hcmin
        omega
      rw [henc, hdec, hmin, hunpack,
        ih (len - c) (by omega) (input.drop c) (by rw [List.length_drop, hlen])
          (fun v hv' => hv v (List.drop_subset _ _ hv')) f1' f2' (by omega) (by omega)]
      exact List.take_append_drop c input

/-- Full round trip at the loop level: decoding the encoder's words
with the matching remaining count reproduces the input. -/
theorem decode_encode_fast :
    ∀ len : Nat, ∀ input : List Nat, input.length = len →
      (∀ v ∈ input, v < 2 ^ 60) →
      ∀ f1 f2 : Nat, len ≤ f1 → len ≤ f2 →
        decodeFastGo f1 (encodeFastGo f2 input) len = input := by
  intro len
  induction len using Nat.strong_induction_on with
  | _ len ih =>
    intro input hlen hv f1 f2 hf1 hf2
    rcases Nat.lt_or_ge len 240 with hlt | hge
    · rcases Nat.eq_zero_or_pos len with h0 | hpos
      · subst h0
        have hnil : input = [] := List.length_eq_zero.mp hlen
        subst hnil
        rw [encodeFastGo_nil, decodeFastGo_zero_rem]
      · obtain ⟨f2', rfl⟩ : ∃ g, f2 = g + 1 := ⟨f2 - 1, by omega⟩
        rw [encodeFastGo_eq_careful (by omega) f2',
          decodeFastGo_eq_careful f1 _ len (by omega)]
        exact decode_encode_careful len input hlen hv f1 (f2' + 1) hf1 (by omega)
    · obtain ⟨f1', rfl⟩ : ∃ g, f1 = g + 1 := ⟨f1 - 1, by omega⟩
      obtain ⟨f2', rfl⟩ : ∃ g, f2 = g + 1 := ⟨f2 - 1, by omega⟩
      obtain ⟨⟨word, c⟩, hstep⟩ := Option.isSome_iff_exists.mp (fastStep_isSome input)
      have h240 : 240 ≤ input.length := by omega
      obtain ⟨hwlt, hc1, hc240, w, hscheme, hunpack⟩ := fastStep_decode h240 hv hstep
      have henc := encodeFastGo_cons_eq h240 f2' hstep
      rcases Nat.lt_or_ge 240 len with hgt | hle240
      · obtain ⟨k', w', hscheme', hdec⟩ :=
          decodeFastGo_cons f1' word (encodeFastGo f2' (input.drop c)) len hwlt hgt
        rw [hscheme] at hscheme'
        injection hscheme' with h'
        injection h' with hk hw
        subst hk hw
        rw [henc, hdec, UnpackFast_eq_careful, hunpack,
          ih (len - c) (by omega) (input.drop c) (by rw [List.length_drop, hlen])
            (fun v hv' => hv v (List.drop_subset _ _ hv')) f1' f2' (by omega) (by omega)]
        exact List.take_append_drop c input
      · have h240eq : len = 240 := by omega
        subst h240eq
        rw [henc, decodeFastGo_eq_careful (f1' + 1) _ 240 (le_refl 240)]
        obtain ⟨k', w', hscheme', hdec⟩ :=
          decodeCarefulGo_cons f1' word (encodeFastGo f2' (input.drop c)) 240 hwlt
            (by omega)
        rw [hscheme] at hscheme'
        injection hscheme' with h'
        injection h' with hk hw
        subst hk hw
        have hmin : min 240 c = c := by omega
        rw [hdec, hmin, hunpack,
          ← decodeFastGo_eq_careful f1' _ (240 - c) (by omega),
          ih (240 - c) (by omega) (input.drop c) (by rw [List.length_drop, hlen])
            (fun v hv' => hv v (List.drop_subset _ _ hv')) f1' f2' (by omega) (by omega)]
        exact List.take_append_drop c input

theorem schemeOf_bounds {s k w : Nat} (h : schemeOf s = some (k, w)) :
    1 ≤ k ∧ k ≤ 240 := by
  unfold schemeOf at h
  split at h <;>
    first
      | exact Option.noConfusion h
      | (injection h with h'; injection h' with hk hw; omega)

/-- The careful decoder loop writes exactly `r` values whenever the
word stream is long enough and made of 64-bit words. -/
theorem decodeCarefulGo_length :
    ∀ fuel : Nat, ∀ ws : List Nat, ∀ r : Nat, r ≤ fuel →
      (∀ x ∈ ws, x < 2 ^ 64) → r ≤ ws.length →
      (decodeCarefulGo fuel ws r).length = r := by
  intro fuel
  induction fuel with
  | zero =>
    intro ws r hr _ _
    have : r = 0 := by omega
    subst this
    rfl
  | succ f ih =>
    intro ws r hr hws hrlen
    rcases Nat.eq_zero_or_pos r with h0 | hpos
    · subst h0
      rw [decodeCarefulGo_zero_rem]
      rfl
    · cases ws with
      | nil =>
        simp at hrlen
        omega
      | cons x rest =>
        obtain ⟨k, w, hscheme, hdec⟩ :=
          decodeCarefulGo_cons f x rest r (hws x (by simp)) hpos
        obtain ⟨hk1, hk240⟩ := schemeOf_bounds hscheme
        rw [hdec, List.length_append, UnpackCareful_length,
          ih rest (r - min r k) (by omega) (fun y hy => hws y (by simp [hy]))
            (by simp at hrlen ⊢; omega)]
        omega

/-- The full decoder loop writes exactly `r` values whenever the word
stream is long enough and made of 64-bit words. -/
theorem decodeFastGo_length :
    ∀ fuel : Nat, ∀ ws : List Nat, ∀ r : Nat, r ≤ fuel →
      (∀ x ∈ ws, x < 2 ^ 64) → r ≤ ws.length →
      (decodeFastGo fuel ws r).length = r := by
  intro fuel
  induction fuel with
  | zero =>
    intro ws r hr _ _
    have : r = 0 := by omega
    subst this
    rfl
  | succ f ih =>
    intro ws r hr hws hrlen
    rcases Nat.lt_or_ge 240 r with hgt | hle
    · cases ws with
      | nil =>
        simp at hrlen
        omega
      | cons x rest =>
        obtain ⟨k, w, hscheme, hdec⟩ :=
          decodeFastGo_cons f x rest r (hws x (by simp)) hgt
        obtain ⟨hk1, hk240⟩ := schemeOf_bounds hscheme
        rw [hdec, List.length_append, UnpackFast_eq_careful, UnpackCareful_length,
          ih rest (r - k) (by omega) (fun y hy => hws y (by simp [hy]))
            (by simp at hrlen ⊢; omega)]
        omega
    · rw [decodeFastGo_eq_careful (f + 1) ws r hle]
      exact decodeCarefulGo_length (f + 1) ws r hr hws hrlen

/-- The careful encoder loop is insensitive to the fuel as long as the
fuel covers the input length. -/
theorem encodeCarefulGo_fuel :
    ∀ f1 : Nat, ∀ input : List Nat, ∀ f2 : Nat,
      input.length ≤ f1 → input.length ≤ f2 →
      encodeCarefulGo f1 input = encodeCarefulGo f2 input := by
  intro f1
  induction f1 with
  | zero =>
    intro input f2 h1 _
    have : input = [] := List.length_eq_zero.mp (by omega)
    subst this
    rw [encodeCarefulGo_nil, encodeCarefulGo_nil]
  | succ f ih =>
    intro input f2 h1 h2
    by_cases hne : input = []
    · subst hne
      rw [encodeCarefulGo_nil, encodeCarefulGo_nil]
    · have hlen : 0 < input.length := List.length_pos.mpr hne
      obtain ⟨g2, rfl⟩ : ∃ g, f2 = g + 1 := ⟨f2 - 1, by omega⟩
      obtain ⟨⟨word, c⟩, hstep⟩ := Option.isSome_iff_exists.mp (carefulStep_isSome input)
      obtain ⟨hc1, hcle⟩ := carefulStep_bounds hne hstep
      rw [encodeCarefulGo_cons_eq hne f hstep, encodeCarefulGo_cons_eq hne g2 hstep]
      congr 1
      apply ih
      · rw [List.length_drop]
        omega
      · rw [List.length_drop]
        omega

/-- The full encoder loop is insensitive to the fuel as long as the
fuel covers the input length. -/
theorem encodeFastGo_fuel :
    ∀ f1 : Nat, ∀ input : List Nat, ∀ f2 : Nat,
      input.length ≤ f1 → input.length ≤ f2 →
      encodeFastGo f1 input = encodeFastGo f2 input := by
  intro f1
  induction f1 with
  | zero =>
    intro input f2 h1 _
    have : input = [] := List.length_eq_zero.mp (by omega)
    subst this
    rw [encodeFastGo_nil, encodeFastGo_nil]
  | succ f ih =>
    intro input f2 h1 h2
    by_cases hne : input = []
    · subst hne
      rw [encodeFastGo_nil, encodeFastGo_nil]
    · have hlen : 0 < input.length := List.length_pos.mpr hne
      obtain ⟨g2, rfl⟩ : ∃ g, f2 = g + 1 := ⟨f2 - 1, by omega⟩
      rcases Nat.lt_or_ge input.length 240 with hlt | hge
      · rw [encodeFastGo_eq_careful hlt f, encodeFastGo_eq_careful hlt g2]
        exact encodeCarefulGo_fuel (f + 1) input (g2 + 1) h1 h2
      · obtain ⟨⟨word, c⟩, hstep⟩ := Option.isSome_iff_exists.mp (fastStep_isSome input)
        obtain ⟨hc1, hc240⟩ := fastStep_bounds hstep
        rw [encodeFastGo_cons_eq hge f hstep, encodeFastGo_cons_eq hge g2 hstep]
        congr 1
        apply ih
        · rw [List.length_drop]
          omega
        · rw [List.length_drop]
          omega

/-- Every careful encoder iteration codes at least one value, so the
words written never exceed the values consumed. -/
theorem encodeCarefulGo_length_le :
    ∀ fuel : Nat, ∀ input : List Nat,
      (encodeCarefulGo fuel input).length ≤ input.length := by
  intro fuel
  induction fuel with
  | zero =>
    intro input
    simp [encodeCarefulGo]
  | succ f ih =>
    intro input
    by_cases hne : input = []
    · subst hne
      rw [encodeCarefulGo_nil]
    · obtain ⟨⟨word, c⟩, hstep⟩ := Option.isSome_iff_exists.mp (carefulStep_isSome input)
      obtain ⟨hc1, hcle⟩ := carefulStep_bounds hne hstep
      have hlen : 0 < input.length := List.length_pos.mpr hne
      rw [encodeCarefulGo_cons_eq hne f hstep, List.length_cons]
      have := ih (input.drop c)
      rw [List.length_drop] at this
      omega

/-- Every fast encoder iteration codes at least one value, so the words
written never exceed the values consumed. -/
theorem encodeFastGo_length_le :
    ∀ fuel : Nat, ∀ input : List Nat,
      (encodeFastGo fuel input).length ≤ input.length := by
  intro fuel
  induction fuel with
  | zero =>
    intro input
    simp [encodeFastGo]
  | succ f ih =>
    intro input
    rcases Nat.lt_or_ge input.length 240 with hlt | hge
    · rw [encodeFastGo_eq_careful hlt f]
      exact encodeCarefulGo_length_le (f + 1) input
    · obtain ⟨⟨word, c⟩, hstep⟩ := Option.isSome_iff_exists.mp (fastStep_isSome input)
      obtain ⟨hc1, hc240⟩ := fastStep_bounds hstep
      rw [encodeFastGo_cons_eq hge f hstep, List.length_cons]
      have := ih (input.drop c)
      rw [List.length_drop] at this
      omega

/-! ### Claim theorems for the Simple8b core -/

/-- C1: for every finite sequence of unsigned 64-bit integers whose
elements are all below `2 ^ 60`, decoding the encoder's word stream
with `outputLength` equal to the input length reproduces the sequence
exactly, for every length (including 0, 239, 240 and 241). -/
theorem simple8b_roundtrip (input : List Nat) (hv : ∀ v ∈ input, v < 2 ^ 60) :
    Simple8bDecode (Simple8bEncode input) input.length = input := by
  unfold Simple8bDecode Simple8bEncode
  exact decode_encode_fast input.length input rfl hv input.length input.length
    le_rfl le_rfl

/-- Witness for C1 at a concrete 241-element input that crosses the
fast/careful boundary and contains a 59-bit value. -/
theorem simple8b_roundtrip_witness :
    (∀ v ∈ List.replicate 239 1 ++ [5, 2 ^ 59], v < 2 ^ 60) ∧
    Simple8bDecode (Simple8bEncode (List.replicate 239 1 ++ [5, 2 ^ 59]))
        (List.replicate 239 1 ++ [5, 2 ^ 59]).length =
      List.replicate 239 1 ++ [5, 2 ^ 59] :=
  ⟨by decide, simple8b_roundtrip _ (by decide)⟩

/-- C4: 240 zeros encode to the single word `0` (selector 0) and decode
back to 240 zeros; and when at least 240 values remain, 120 zeros
followed by a not-all-zero block of 120 produce one selector-1 word
coding exactly the 120 zeros, after which encoding continues. -/
theorem simple8b_zero_run_compaction :
    Simple8bEncode (List.replicate 240 0) = [0] ∧
    Simple8bDecode [0] 240 = List.replicate 240 0 ∧
    ∀ input : List Nat, 240 ≤ input.length →
      (∀ x ∈ input.take 120, x = 0) →
      ¬(∀ x ∈ (input.drop 120).take 120, x = 0) →
      Simple8bEncode input =
        1 <<< (64 - SIMPLE8B_SELECTOR_BITS) :: Simple8bEncode (input.drop 120) := by
  refine ⟨by decide, by decide, ?_⟩
  intro input h240 hz hnz
  have ht1 : TryPackFast 120 0 input = true := by
    unfold TryPackFast
    rw [if_neg (by omega)]
    apply List.all_eq_true.mpr
    intro v hv
    rw [hz v hv]
    decide
  have ht2 : TryPackFast 120 0 (input.drop 120) = false := by
    cases hfb : TryPackFast 120 0 (input.drop 120)
    · rfl
    · exfalso
      apply hnz
      intro v hv
      have := TryPackFast_true (by norm_num) hfb v hv
      simp only [pow_zero] at this
      omega
  have hstep : fastStep input = some (1 <<< (64 - SIMPLE8B_SELECTOR_BITS), 120) := by
    unfold fastStep
    rw [if_pos ht1, if_neg (by rw [ht2]; exact Bool.false_ne_true)]
  unfold Simple8bEncode
  obtain ⟨g, hg⟩ : ∃ g, input.length = g + 1 := ⟨input.length - 1, by omega⟩
  rw [hg, encodeFastGo_cons_eq (by omega) g hstep]
  congr 1
  apply encodeFastGo_fuel
  · rw [List.length_drop]
    omega
  · rw [List.length_drop]

/-- Witness for C4's conditional part at a concrete input: 120 zeros
followed by 120 ones. -/
theorem simple8b_zero_run_compaction_witness :
    240 ≤ (List.replicate 120 0 ++ List.replicate 120 1 : List Nat).length ∧
    (∀ x ∈ (List.replicate 120 0 ++ List.replicate 120 1 : List Nat).take 120, x = 0) ∧
    ¬(∀ x ∈ ((List.replicate 120 0 ++ List.replicate 120 1 : List Nat).drop 120).take 120,
        x = 0) ∧
    Simple8bEncode (List.replicate 120 0 ++ List.replicate 120 1) =
      1 <<< (64 - SIMPLE8B_SELECTOR_BITS) ::
        Simple8bEncode ((List.replicate 120 0 ++ List.replicate 120 1 : List Nat).drop 120) :=
  ⟨by decide, by decide, by decide,
    simple8b_zero_run_compaction.2.2 _ (by decide) (by decide) (by decide)⟩

/-- C6: for every requested output length and every input stream of
64-bit words with at least `outputLength` words, the decoder
terminates and writes exactly `outputLength` values (its return value),
whatever selector codes occur; no length is read from the stream. -/
theorem simple8b_decode_writes_outputLength (words : List Nat) (outputLength : Nat)
    (hwords : ∀ x ∈ words, x < 2 ^ 64) (henough : outputLength ≤ words.length) :
    (Simple8bDecode words outputLength).length = outputLength := by
  unfold Simple8bDecode
  exact decodeFastGo_length outputLength words outputLength le_rfl hwords henough

/-- Witness for C6 on a concrete stream whose selector is 3 (not a
stream the encoder would produce for this length), decoded to 2
values. -/
theorem simple8b_decode_writes_outputLength_witness :
    (∀ x ∈ [packWord 3 2 [1, 2, 3], 0], x < 2 ^ 64) ∧
    (2 : Nat) ≤ [packWord 3 2 [1, 2, 3], 0].length ∧
    (Simple8bDecode [packWord 3 2 [1, 2, 3], 0] 2).length = 2 :=
  ⟨by decide, by decide,
    simple8b_decode_writes_outputLength _ 2 (by decide) (by decide)⟩

/-- C8: the final else branch of both encoder loops is unreachable: on
every input, some scheme's fit test accepts (the width-60 selector-15
test accepts unconditionally), so both step functions always produce a
word. -/
theorem simple8b_no_scheme_fits_unreachable (input : List Nat) :
    (fastStep input).isSome = true ∧ (carefulStep input).isSome = true :=
  ⟨fastStep_isSome input, carefulStep_isSome input⟩

/-- C9: the encoder terminates on every input (it is a total function
of its fuel-free entry point) and writes at most one word per input
element, so an output buffer of `inputLength` words suffices. -/
theorem simple8b_encode_terminates_word_bound (input : List Nat) :
    (Simple8bEncode input).length ≤ input.length := by
  unfold Simple8bEncode
  exact encodeFastGo_length_le input.length input

/-- C7: the fit predicates: for widths at least 32 `TryPackFast`
accepts unconditionally without inspecting values; for narrower widths
it accepts exactly when every one of the first `count` values fits in
`width` bits; and `TryPackCareful` is `TryPackFast` with the count
clamped to the values actually remaining. -/
theorem trypack_fit_semantics :
    ∀ (count width : Nat) (values : List Nat) (maxIntegers : Nat),
      (32 ≤ width → TryPackFast count width values = true) ∧
      (width < 32 →
        (TryPackFast count width values = true ↔
          ∀ v ∈ values.take count, v < 2 ^ width)) ∧
      TryPackCareful count width values maxIntegers =
        TryPackFast (min count maxIntegers) width values := by
  intro count width values m
  refine ⟨?_, ?_, ?_⟩
  · intro h32
    unfold TryPackFast
    rw [if_pos h32]
  · intro hlt
    constructor
    · exact TryPackFast_true hlt
    · intro hall
      unfold TryPackFast
      rw [if_neg (by omega)]
      apply List.all_eq_true.mpr
      intro v hv
      exact decide_eq_true (hall v hv)
  · unfold TryPackCareful TryPackFast
    rcases Nat.lt_or_ge width 32 with hlt | hge
    · rw [if_neg (by omega), if_neg (by omega), min_comm m count]
    · rw [if_pos hge, if_pos hge]

/-- Witness for C7 at concrete fit checks. -/
theorem trypack_fit_semantics_witness :
    TryPackFast 2 60 [2 ^ 50, 3] = true ∧
    (TryPackFast 2 1 [1, 0, 5] = true ↔ ∀ v ∈ [1, 0, 5].take 2, v < 2 ^ 1) ∧
    TryPackCareful 3 2 [1, 2, 3] 2 = TryPackFast (min 3 2) 2 [1, 2, 3] :=
  ⟨(trypack_fit_semantics 2 60 [2 ^ 50, 3] 0).1 (by norm_num),
   (trypack_fit_semantics 2 1 [1, 0, 5] 0).2.1 (by norm_num),
   (trypack_fit_semantics 3 2 [1, 2, 3] 2).2.2⟩

/-! ### Delta transform -/

theorem Add64_Sub64 {a b : Nat} (ha : a < 2 ^ 64) (hb : b < 2 ^ 64) :
    Add64 (Sub64 a b) b = a := by
  unfold Add64 Sub64
  rw [Nat.mod_add_mod, show a + 2 ^ 64 - b + b = a + 2 ^ 64 from by omega,
    Nat.add_mod_right, Nat.mod_eq_of_lt ha]

theorem getD_set_eq {l : List Nat} {i : Nat} (h : i < l.length) (a : Nat) :
    (l.set i a).getD i 0 = a := by
  simp [List.getD_eq_getElem?_getD, List.getElem?_set_self h]

theorem getD_set_ne {l : List Nat} {i j : Nat} (h : i ≠ j) (a : Nat) :
    (l.set i a).getD j 0 = l.getD j 0 := by
  simp [List.getD_eq_getElem?_getD, List.getElem?_set_ne h]

theorem getD_lt_of_forall {l : List Nat} {i B : Nat} (hi : i < l.length)
    (h : ∀ v ∈ l, v < B) : l.getD i 0 < B := by
  rw [List.getD_eq_getElem?_getD, List.getElem?_eq_getElem hi]
  simpa using h _ (List.getElem_mem hi)

theorem deltaEncLoop_length : ∀ (i : Nat) (buf : List Nat),
    (deltaEncLoop buf i).length = buf.length := by
  intro i
  induction i with
  | zero => intro buf; rfl
  | succ m ih =>
    intro buf
    simp only [deltaEncLoop]
    rw [ih, List.length_set]

/-- Pointwise description of the downward delta-encode loop: indices
`1..i` hold differences of the original neighbours, the rest is
untouched (each subtraction reads the not-yet-modified predecessor). -/
theorem deltaEncLoop_getD : ∀ (i : Nat) (buf : List Nat), i < buf.length →
    ∀ j : Nat, (deltaEncLoop buf i).getD j 0 =
      if 1 ≤ j ∧ j ≤ i then Sub64 (buf.getD j 0) (buf.getD (j - 1) 0)
      else buf.getD j 0 := by
  intro i
  induction i with
  | zero =>
    intro buf _ j
    rw [if_neg (by omega)]
    rfl
  | succ m ih =>
    intro buf hi j
    simp only [deltaEncLoop]
    rw [ih (buf.set (m + 1) (Sub64 (buf.getD (m + 1) 0) (buf.getD m 0)))
      (by rw [List.length_set]; omega) j]
    by_cases hj : 1 ≤ j ∧ j ≤ m
    · rw [if_pos hj, if_pos (by omega), getD_set_ne (by omega),
        getD_set_ne (by omega)]
    · rw [if_neg hj]
      by_cases hj1 : j = m + 1
      · subst hj1
        rw [if_pos (by omega), getD_set_eq hi]
        simp only [Nat.add_sub_cancel]
      · rw [if_neg (by omega), getD_set_ne (by omega)]

/-- The forward delta-decode loop restores the original buffer from the
encoded one: the invariant is that everything before the loop index is
already restored while everything from it on still holds differences. -/
theorem deltaDecLoop_restore :
    ∀ (f i : Nat) (buf orig : List Nat),
      buf.length = orig.length → (∀ v ∈ orig, v < 2 ^ 64) →
      i + f = orig.length → 1 ≤ i →
      (∀ j, j < i → buf.getD j 0 = orig.getD j 0) →
      (∀ j, i ≤ j → j < orig.length →
        buf.getD j 0 = Sub64 (orig.getD j 0) (orig.getD (j - 1) 0)) →
      deltaDecLoop buf i f = orig := by
  intro f
  induction f with
  | zero =>
    intro i buf orig hlen hv hif hi1 hlow hhigh
    show buf = orig
    apply List.ext_getElem hlen
    intro j hj1 hj2
    have h := hlow j (by omega)
    rw [List.getD_eq_getElem?_getD, List.getD_eq_getElem?_getD,
      List.getElem?_eq_getElem hj1, List.getElem?_eq_getElem hj2] at h
    simpa using h
  | succ g ih =>
    intro i buf orig hlen hv hif hi1 hlow hhigh
    have hi_lt : i < orig.length := by omega
    simp only [deltaDecLoop]
    have hval : Add64 (buf.getD i 0) (buf.getD (i - 1) 0) = orig.getD i 0 := by
      rw [hhigh i le_rfl hi_lt, hlow (i - 1) (by omega)]
      exact Add64_Sub64 (getD_lt_of_forall hi_lt hv)
        (getD_lt_of_forall (by omega) hv)
    rw [hval]
    apply ih (i + 1) _ orig (by rw [List.length_set]; exact hlen) hv (by omega)
      (by omega)
    · intro j hj
      by_cases hji : j = i
      · subst hji
        rw [getD_set_eq (by omega)]
      · rw [getD_set_ne (by omega)]
        exact hlow j (by omega)
    · intro j hj1 hj2
      rw [getD_set_ne (by omega)]
      exact hhigh j (by omega) hj2

/-- C3: for every buffer of 64-bit two's-complement values with length
at least 1, the in-place backward delta encoding followed by the
in-place forward delta decoding restores the buffer exactly. -/
theorem delta_roundtrip (input : List Nat) (hlen : 1 ≤ input.length)
    (hv : ∀ v ∈ input, v < 2 ^ 64) :
    DeltaDecode (DeltaEncode input) = input := by
  unfold DeltaDecode DeltaEncode
  rw [deltaEncLoop_length]
  apply deltaDecLoop_restore (input.length - 1) 1 _ input
    (deltaEncLoop_length _ _) hv (by omega) (by omega)
  · intro j hj
    have hj0 : j = 0 := by omega
    subst hj0
    rw [deltaEncLoop_getD (input.length - 1) input (by omega) 0, if_neg (by omega)]
  · intro j hj1 hj2
    rw [deltaEncLoop_getD (input.length - 1) input (by omega) j, if_pos (by omega)]

/-- Witness for C3 at a concrete buffer containing a negative value's
pattern. -/
theorem delta_roundtrip_witness :
    1 ≤ ([10, 12, 11, 2 ^ 63] : List Nat).length ∧
    (∀ v ∈ ([10, 12, 11, 2 ^ 63] : List Nat), v < 2 ^ 64) ∧
    DeltaDecode (DeltaEncode [10, 12, 11, 2 ^ 63]) = [10, 12, 11, 2 ^ 63] :=
  ⟨by decide, by decide, delta_roundtrip _ (by decide) (by decide)⟩

theorem deltaEncLoopChecked_eq :
    ∀ (i : Nat) (buf : List Nat), i < buf.length →
      deltaEncLoopChecked buf i = some (deltaEncLoop buf i) := by
  intro i
  induction i with
  | zero => intro buf _; rfl
  | succ m ih =>
    intro buf hi
    simp only [deltaEncLoopChecked, deltaEncLoop]
    rw [if_pos hi]
    exact ih _ (by rw [List.length_set]; omega)

/-- C10: calling `DeltaEncode` with `length = 0` underflows the
`uint64_t` loop counter to `2 ^ 64 - 1` and immediately reads out of
bounds (modelled as `none`); with `length = 1` the loop body never runs
and the buffer is returned unchanged; and for every `length ≥ 1` equal
to the buffer length the transform is well defined and agrees with the
in-range delta encoding. -/
theorem deltaencode_length_zero_unsafe :
    (∀ input : List Nat, input.length < 2 ^ 64 → DeltaEncodeU64 input 0 = none) ∧
    (∀ input : List Nat, DeltaEncodeU64 input 1 = some input) ∧
    (∀ input : List Nat, 1 ≤ input.length → input.length < 2 ^ 64 →
      DeltaEncodeU64 input input.length = some (DeltaEncode input)) := by
  refine ⟨?_, ?_, ?_⟩
  · intro input hlen
    unfold DeltaEncodeU64
    rw [show (0 + (2 ^ 64 - 1)) % 2 ^ 64 = 2 ^ 64 - 2 + 1 from by norm_num]
    rw [deltaEncLoopChecked]
    rw [if_neg (by omega)]
  · intro input
    unfold DeltaEncodeU64
    rw [show (1 + (2 ^ 64 - 1)) % 2 ^ 64 = 0 from by norm_num]
    rw [deltaEncLoopChecked]
  · intro input h1 h2
    unfold DeltaEncodeU64 DeltaEncode
    rw [show (input.length + (2 ^ 64 - 1)) % 2 ^ 64 = input.length - 1 from by omega]
    exact deltaEncLoopChecked_eq _ _ (by omega)

/-- Witness for C10 at a concrete two-element buffer. -/
theorem deltaencode_length_zero_unsafe_witness :
    ([5, 7] : List Nat).length < 2 ^ 64 ∧
    DeltaEncodeU64 [5, 7] 0 = none ∧
    DeltaEncodeU64 [5, 7] 1 = some [5, 7] ∧
    DeltaEncodeU64 [5, 7] ([5, 7] : List Nat).length = some (DeltaEncode [5, 7]) :=
  ⟨by norm_num, deltaencode_length_zero_unsafe.1 [5, 7] (by norm_num),
   deltaencode_length_zero_unsafe.2.1 [5, 7],
   deltaencode_length_zero_unsafe.2.2 [5, 7] (by norm_num) (by norm_num)⟩

/-- C2 (failing evaluation): zig-zag decoding the zig-zag encoding of
the `int64_t` value `2 ^ 62` yields the pattern of `-2 ^ 62`
(`2 ^ 63 + 2 ^ 62`), not `2 ^ 62`: the decoder's `>> 1` on the signed
type is an arithmetic shift, which corrupts every encoded value with
the top bit set, so the transform pair is not an exact inverse on the
full 64-bit range. -/
theorem zigzag_decode_encode_at_2_pow_62 :
    ZigZagDecode (ZigZagEncode [2 ^ 62]) = [2 ^ 63 + 2 ^ 62] := by decide

/-! ### The oversized-value claim: trace lemmas -/

theorem getD_mem_take {l : List Nat} {i k : Nat} (hik : i < k) (hil : i < l.length) :
    l.getD i 0 ∈ l.take k := by
  rw [List.getD_eq_getElem?_getD, List.getElem?_eq_getElem hil]
  simp only [Option.getD_some]
  rw [List.getElem_take' l hil hik]
  exact List.getElem_mem _

theorem getD_drop (l : List Nat) (m j : Nat) :
    (l.drop m).getD j 0 = l.getD (m + j) 0 := by
  simp [List.getD_eq_getElem?_getD, List.getElem?_drop]

theorem fastSchemes_narrow : ∀ t ∈ fastSchemes, t.2.2 < 32 → t.2.2 ≤ 30 := by decide

theorem fastSchemes_wide_count : ∀ t ∈ fastSchemes, 32 ≤ t.2.2 → t.2.1 = 1 := by decide

theorem TryPackFast_false_head {a : Nat} {as : List Nat} {k w : Nat}
    (hk : 1 ≤ k) (hw : w < 32) (ha : 2 ^ w ≤ a) :
    TryPackFast k w (a :: as) = false := by
  unfold TryPackFast
  rw [if_neg (by omega)]
  apply List.all_eq_false.mpr
  refine ⟨a, ?_, ?_⟩
  · obtain ⟨m, rfl⟩ : ∃ m, k = m + 1 := ⟨k - 1, by omega⟩
    rw [List.take_succ_cons]
    exact List.mem_cons_self a _
  · simp only [decide_eq_true_eq]
    omega

theorem TryPackCareful_false_head {a : Nat} {as : List Nat} {k w m : Nat}
    (hk : 1 ≤ k) (hm : 1 ≤ m) (hw : w < 32) (ha : 2 ^ w ≤ a) :
    TryPackCareful k w (a :: as) m = false := by
  unfold TryPackCareful
  rw [if_neg (by omega)]
  apply List.all_eq_false.mpr
  refine ⟨a, ?_, ?_⟩
  · obtain ⟨n, hn⟩ : ∃ n, min m k = n + 1 := ⟨min m k - 1, by omega⟩
    rw [hn, List.take_succ_cons]
    exact List.mem_cons_self a _
  · simp only [decide_eq_true_eq]
    omega

/-- When the value at the cursor needs more than 30 bits, every fit
check up to width 30 fails and the fast loop takes the selector-15
branch, packing that value alone. -/
theorem fastStep_at {a : Nat} {as : List Nat} (ha : 2 ^ 30 ≤ a) :
    fastStep (a :: as) = some (packWord 15 60 [a], 1) := by
  have hf : ∀ k w : Nat, 1 ≤ k → w ≤ 30 → TryPackFast k w (a :: as) = false := by
    intro k w hk hw
    apply TryPackFast_false_head hk (by omega)
    calc (2 : Nat) ^ w ≤ 2 ^ 30 := Nat.pow_le_pow_right (by omega) hw
      _ ≤ a := ha
  unfold fastStep
  rw [if_neg (by rw [hf 120 0 (by omega) (by omega)]; exact Bool.false_ne_true),
    if_neg (by rw [hf 60 1 (by omega) (by omega)]; exact Bool.false_ne_true),
    if_neg (by rw [hf 30 2 (by omega) (by omega)]; exact Bool.false_ne_true),
    if_neg (by rw [hf 20 3 (by omega) (by omega)]; exact Bool.false_ne_true),
    if_neg (by rw [hf 15 4 (by omega) (by omega)]; exact Bool.false_ne_true),
    if_neg (by rw [hf 12 5 (by omega) (by omega)]; exact Bool.false_ne_true),
    if_neg (by rw [hf 10 6 (by omega) (by omega)]; exact Bool.false_ne_true),
    if_neg (by rw [hf 8 7 (by omega) (by omega)]; exact Bool.false_ne_true),
    if_neg (by rw [hf 7 8 (by omega) (by omega)]; exact Bool.false_ne_true),
    if_neg (by rw [hf 6 10 (by omega) (by omega)]; exact Bool.false_ne_true),
    if_neg (by rw [hf 5 12 (by omega) (by omega)]; exact Bool.false_ne_true),
    if_neg (by rw [hf 4 15 (by omega) (by omega)]; exact Bool.false_ne_true),
    if_neg (by rw [hf 3 20 (by omega) (by omega)]; exact Bool.false_ne_true),
    if_neg (by rw [hf 2 30 (by omega) (by omega)]; exact Bool.false_ne_true),
    if_pos (show TryPackFast 1 60 (a :: as) = true from rfl)]
  rfl

/-- The careful-loop analogue of `fastStep_at`. -/
theorem carefulStep_at {a : Nat} {as : List Nat} (ha : 2 ^ 30 ≤ a) :
    carefulStep (a :: as) = some (packWord 15 60 [a], 1) := by
  have hm : 1 ≤ (a :: as).length := by simp
  have hf : ∀ k w : Nat, 1 ≤ k → w ≤ 30 →
      TryPackCareful k w (a :: as) (a :: as).length = false := by
    intro k w hk hw
    apply TryPackCareful_false_head hk hm (by omega)
    calc (2 : Nat) ^ w ≤ 2 ^ 30 := Nat.pow_le_pow_right (by omega) hw
      _ ≤ a := ha
  unfold carefulStep
  rw [if_neg (by rw [hf 240 0 (by omega) (by omega)]; exact Bool.false_ne_true),
    if_neg (by rw [hf 120 0 (by omega) (by omega)]; exact Bool.false_ne_true),
    if_neg (by rw [hf 60 1 (by omega) (by omega)]; exact Bool.false_ne_true),
    if_neg (by rw [hf 30 2 (by omega) (by omega)]; exact Bool.false_ne_true),
    if_neg (by rw [hf 20 3 (by omega) (by omega)]; exact Bool.false_ne_true),
    if_neg (by rw [hf 15 4 (by omega) (by omega)]; exact Bool.false_ne_true),
    if_neg (by rw [hf 12 5 (by omega) (by omega)]; exact Bool.false_ne_true),
    if_neg (by rw [hf 10 6 (by omega) (by omega)]; exact Bool.false_ne_true),
    if_neg (by rw [hf 8 7 (by omega) (by omega)]; exact Bool.false_ne_true),
    if_neg (by rw [hf 7 8 (by omega) (by omega)]; exact Bool.false_ne_true),
    if_neg (by rw [hf 6 10 (by omega) (by omega)]; exact Bool.false_ne_true),
    if_neg (by rw [hf 5 12 (by omega) (by omega)]; exact Bool.false_ne_true),
    if_neg (by rw [hf 4 15 (by omega) (by omega)]; exact Bool.false_ne_true),
    if_neg (by rw [hf 3 20 (by omega) (by omega)]; exact Bool.false_ne_true),
    if_neg (by rw [hf 2 30 (by omega) (by omega)]; exact Bool.false_ne_true),
    if_pos (show TryPackCareful 1 60 (a :: as) (a :: as).length = true from rfl)]
  have hmin : min (a :: as).length 1 = 1 := by simp
  rw [hmin]
  rfl

/-- A fast encoder step starting strictly before an element that needs
more than 30 bits never reaches past that element. -/
theorem fastStep_avoid {input : List Nat} {word c i : Nat}
    (hs : fastStep input = some (word, c)) (hi : i < input.length)
    (hbig : 2 ^ 30 ≤ input.getD i 0) (hi1 : 1 ≤ i) : c ≤ i := by
  by_contra hgt
  push_neg at hgt
  rcases fastStep_eq_some_cases hs with ⟨hword, hc, ht1, ht2⟩ | ⟨hword, hc, ht1⟩ |
    ⟨sel, k, w, hmem, hword, hc, hfit⟩
  · subst hc
    rcases Nat.lt_or_ge i 120 with h120 | h120
    · have := TryPackFast_true (by norm_num) ht1 (input.getD i 0)
        (getD_mem_take h120 hi)
      simp only [pow_zero] at this
      omega
    · have hmem' : input.getD i 0 ∈ (input.drop 120).take 120 := by
        rw [show input.getD i 0 = (input.drop 120).getD (i - 120) 0 from by
          rw [getD_drop, show 120 + (i - 120) = i from by omega]]
        exact getD_mem_take (by omega) (by rw [List.length_drop]; omega)
      have := TryPackFast_true (by norm_num) ht2 _ hmem'
      simp only [pow_zero] at this
      omega
  · subst hc
    have := TryPackFast_true (by norm_num) ht1 (input.getD i 0)
      (getD_mem_take (by omega) hi)
    simp only [pow_zero] at this
    omega
  · subst hc
    rcases Nat.lt_or_ge w 32 with hw32 | hw32
    · have hw30 : w ≤ 30 := fastSchemes_narrow _ hmem hw32
      have := TryPackFast_true hw32 hfit _ (getD_mem_take hgt hi)
      have h2 : (2 : Nat) ^ w ≤ 2 ^ 30 := Nat.pow_le_pow_right (by omega) hw30
      omega
    · have hk1 : c = 1 := fastSchemes_wide_count _ hmem hw32
      omega

/-- The careful-loop analogue of `fastStep_avoid`. -/
theorem carefulStep_avoid {input : List Nat} {word c i : Nat}
    (hs : carefulStep input = some (word, c)) (hi : i < input.length)
    (hbig : 2 ^ 30 ≤ input.getD i 0) (hi1 : 1 ≤ i) : c ≤ i := by
  by_contra hgt
  push_neg at hgt
  rcases carefulStep_eq_some_cases hs with ⟨hword, hc, ht⟩ | ⟨hword, hc, ht⟩ |
    ⟨sel, k, w, hmem, hword, hc, hfit⟩
  · subst hc
    have := TryPackCareful_true (by norm_num) ht (input.getD i 0)
      (getD_mem_take hgt hi)
    simp only [pow_zero] at this
    omega
  · subst hc
    have := TryPackCareful_true (by norm_num) ht (input.getD i 0)
      (getD_mem_take hgt hi)
    simp only [pow_zero] at this
    omega
  · subst hc
    rcases Nat.lt_or_ge w 32 with hw32 | hw32
    · have hw30 : w ≤ 30 := fastSchemes_narrow _ hmem hw32
      have := TryPackCareful_true hw32 hfit _ (getD_mem_take hgt hi)
      have h2 : (2 : Nat) ^ w ≤ 2 ^ 30 := Nat.pow_le_pow_right (by omega) hw30
      omega
    · have hk1 : k = 1 := fastSchemes_wide_count _ hmem hw32
      omega

theorem encodeCarefulGoT_nil (f pos : Nat) : encodeCarefulGoT f [] pos = [] := by
  cases f with
  | zero => rfl
  | succ g => simp [encodeCarefulGoT]

theorem encodeFastGoT_nil (f pos : Nat) : encodeFastGoT f [] pos = [] := by
  cases f with
  | zero => rfl
  | succ g => simp [encodeFastGoT, encodeCarefulGoT]

theorem encodeCarefulGoT_cons_eq {input : List Nat} (hne : input ≠ []) (f pos : Nat)
    {word c : Nat} (hstep : carefulStep input = some (word, c)) :
    encodeCarefulGoT (f + 1) input pos =
      (pos, c, word) :: encodeCarefulGoT f (input.drop c) (pos + c) := by
  have hemp : input.isEmpty = false := by
    cases input with
    | nil => exact absurd rfl hne
    | cons a as => rfl
  simp [encodeCarefulGoT, hemp, hstep]

theorem encodeFastGoT_cons_eq {input : List Nat} (h240 : 240 ≤ input.length)
    (f pos : Nat) {word c : Nat} (hstep : fastStep input = some (word, c)) :
    encodeFastGoT (f + 1) input pos =
      (pos, c, word) :: encodeFastGoT f (input.drop c) (pos + c) := by
  simp only [encodeFastGoT, hstep]
  rw [if_pos h240]

theorem encodeFastGoT_eq_careful {input : List Nat} (hlt : input.length < 240)
    (f pos : Nat) :
    encodeFastGoT (f + 1) input pos = encodeCarefulGoT (f + 1) input pos := by
  simp only [encodeFastGoT]
  rw [if_neg (by omega)]

/-- The instrumented careful loop projects to the plain careful loop. -/
theorem encodeCarefulGoT_map :
    ∀ (fuel : Nat) (input : List Nat) (pos : Nat),
      (encodeCarefulGoT fuel input pos).map (fun t => t.2.2) =
        encodeCarefulGo fuel input := by
  intro fuel
  induction fuel with
  | zero => intro input pos; rfl
  | succ f ih =>
    intro input pos
    by_cases hne : input = []
    · subst hne
      rw [encodeCarefulGoT_nil, encodeCarefulGo_nil]
      rfl
    · obtain ⟨⟨word, c⟩, hstep⟩ := Option.isSome_iff_exists.mp (carefulStep_isSome input)
      rw [encodeCarefulGoT_cons_eq hne f pos hstep, encodeCarefulGo_cons_eq hne f hstep,
        List.map_cons, ih]

/-- The instrumented fast loop projects to the plain fast loop. -/
theorem encodeFastGoT_map :
    ∀ (fuel : Nat) (input : List Nat) (pos : Nat),
      (encodeFastGoT fuel input pos).map (fun t => t.2.2) =
        encodeFastGo fuel input := by
  intro fuel
  induction fuel with
  | zero => intro input pos; rfl
  | succ f ih =>
    intro input pos
    rcases Nat.lt_or_ge input.length 240 with hlt | hge
    · rw [encodeFastGoT_eq_careful hlt f pos, encodeFastGo_eq_careful hlt f,
        encodeCarefulGoT_map]
    · obtain ⟨⟨word, c⟩, hstep⟩ := Option.isSome_iff_exists.mp (fastStep_isSome input)
      rw [encodeFastGoT_cons_eq hge f pos hstep, encodeFastGo_cons_eq hge f hstep,
        List.map_cons, ih]

/-- The careful encoder's cursor reaches every element that needs more
than 30 bits exactly, and codes it alone with selector 15. -/
theorem encodeCarefulGoT_hits :
    ∀ (fuel : Nat) (cur : List Nat) (pos i : Nat),
      cur.length ≤ fuel → i < cur.length → 2 ^ 30 ≤ cur.getD i 0 →
      (pos + i, 1, packWord 15 60 [cur.getD i 0]) ∈ encodeCarefulGoT fuel cur pos := by
  intro fuel
  induction fuel with
  | zero =>
    intro cur pos i hf hi _
    omega
  | succ f ih =>
    intro cur pos i hf hi hbig
    have hne : cur ≠ [] := by
      intro h
      subst h
      simp at hi
    obtain ⟨⟨word, c⟩, hstep⟩ := Option.isSome_iff_exists.mp (carefulStep_isSome cur)
    rw [encodeCarefulGoT_cons_eq hne f pos hstep]
    rcases Nat.eq_zero_or_pos i with h0 | hpos
    · subst h0
      obtain ⟨a, as, rfl⟩ : ∃ a as, cur = a :: as := by
        cases cur with
        | nil => exact absurd rfl hne
        | cons a as => exact ⟨a, as, rfl⟩
      have ha : 2 ^ 30 ≤ a := by simpa using hbig
      rw [carefulStep_at ha] at hstep
      injection hstep with h'
      injection h' with hw hc
      subst hw hc
      simp only [Nat.add_zero, List.getD_cons_zero]
      exact List.mem_cons_self _ _
    · have hc_le : c ≤ i := carefulStep_avoid hstep hi hbig hpos
      obtain ⟨hc1, hcle⟩ := carefulStep_bounds hne hstep
      apply List.mem_cons_of_mem
      have hrec := ih (cur.drop c) (pos + c) (i - c)
        (by rw [List.length_drop]; omega)
        (by rw [List.length_drop]; omega)
        (by rw [getD_drop, show c + (i - c) = i from by omega]; exact hbig)
      rw [getD_drop, show c + (i - c) = i from by omega,
        show pos + c + (i - c) = pos + i from by omega] at hrec
      exact hrec

/-- The full encoder's cursor reaches every element that needs more
than 30 bits exactly, and codes it alone with selector 15. -/
theorem encodeFastGoT_hits :
    ∀ (fuel : Nat) (cur : List Nat) (pos i : Nat),
      cur.length ≤ fuel → i < cur.length → 2 ^ 30 ≤ cur.getD i 0 →
      (pos + i, 1, packWord 15 60 [cur.getD i 0]) ∈ encodeFastGoT fuel cur pos := by
  intro fuel
  induction fuel with
  | zero =>
    intro cur pos i hf hi _
    omega
  | succ f ih =>
    intro cur pos i hf hi hbig
    rcases Nat.lt_or_ge cur.length 240 with hlt | hge
    · rw [encodeFastGoT_eq_careful hlt f pos]
      exact encodeCarefulGoT_hits (f + 1) cur pos i (by omega) hi hbig
    · obtain ⟨⟨word, c⟩, hstep⟩ := Option.isSome_iff_exists.mp (fastStep_isSome cur)
      rw [encodeFastGoT_cons_eq hge f pos hstep]
      rcases Nat.eq_zero_or_pos i with h0 | hpos
      · subst h0
        obtain ⟨a, as, rfl⟩ : ∃ a as, cur = a :: as := by
          cases cur with
          | nil => simp at hi
          | cons a as => exact ⟨a, as, rfl⟩
        have ha : 2 ^ 30 ≤ a := by simpa using hbig
        rw [fastStep_at ha] at hstep
        injection hstep with h'
        injection h' with hw hc
        subst hw hc
        simp only [Nat.add_zero, List.getD_cons_zero]
        exact List.mem_cons_self _ _
      · have hc_le : c ≤ i := fastStep_avoid hstep hi hbig hpos
        obtain ⟨hc1, hc240⟩ := fastStep_bounds hstep
        apply List.mem_cons_of_mem
        have hrec := ih (cur.drop c) (pos + c) (i - c)
          (by rw [List.length_drop]; omega)
          (by rw [List.length_drop]; omega)
          (by rw [getD_drop, show c + (i - c) = i from by omega]; exact hbig)
        rw [getD_drop, show c + (i - c) = i from by omega,
          show pos + c + (i - c) = pos + i from by omega] at hrec
        exact hrec

/-- C5: every element `v` with `2 ^ 30 ≤ v < 2 ^ 60` is packed alone:
the traced encoder (whose words project to `Simple8bEncode`'s output)
contains a step starting exactly at `v`'s position, coding one value,
whose word is the selector-15 word holding exactly `v` — regardless of
the surrounding values. -/
theorem oversized_value_isolated (pre post : List Nat) (v : Nat)
    (hv30 : 2 ^ 30 ≤ v) (hall : ∀ x ∈ pre ++ v :: post, x < 2 ^ 60) :
    (Simple8bEncodeTrace (pre ++ v :: post)).map (fun t => t.2.2) =
      Simple8bEncode (pre ++ v :: post) ∧
    (pre.length, 1, packWord 15 60 [v]) ∈ Simple8bEncodeTrace (pre ++ v :: post) ∧
    GetSelectorNum (packWord 15 60 [v]) = 15 ∧
    packWord 15 60 [v] = 15 * 2 ^ 60 + v := by
  have hv60 : v < 2 ^ 60 := hall v (by simp)
  have hv1 : ∀ x ∈ ([v] : List Nat), x < 2 ^ 60 := by
    intro x hx
    simp at hx
    subst hx
    exact hv60
  refine ⟨encodeFastGoT_map _ _ _, ?_, ?_, ?_⟩
  · unfold Simple8bEncodeTrace
    have hgetD : (pre ++ v :: post).getD pre.length 0 = v := by
      simp [List.getD_eq_getElem?_getD, List.getElem?_append_right (le_refl pre.length)]
    have hilen : pre.length < (pre ++ v :: post).length := by
      rw [List.length_append, List.length_cons]
      omega
    have h := encodeFastGoT_hits (pre ++ v :: post).length (pre ++ v :: post) 0
      pre.length le_rfl hilen (by rw [hgetD]; exact hv30)
    rw [hgetD] at h
    simpa using h
  · exact GetSelectorNum_packWord 15 60 [v] (by norm_num) hv1 (by simp)
  · rw [packWord_eq 15 60 [v] (by norm_num) hv1 (by simp)]
    simp [valNat]

/-- Witness for C5: a 30-bit-plus value between two small values. -/
theorem oversized_value_isolated_witness :
    2 ^ 30 ≤ 2 ^ 30 ∧ (∀ x ∈ [1] ++ 2 ^ 30 :: [2], x < 2 ^ 60) ∧
    ((Simple8bEncodeTrace ([1] ++ 2 ^ 30 :: [2])).map (fun t => t.2.2) =
        Simple8bEncode ([1] ++ 2 ^ 30 :: [2]) ∧
      (([1] : List Nat).length, 1, packWord 15 60 [2 ^ 30]) ∈
        Simple8bEncodeTrace ([1] ++ 2 ^ 30 :: [2]) ∧
      GetSelectorNum (packWord 15 60 [2 ^ 30]) = 15 ∧
      packWord 15 60 [2 ^ 30] = 15 * 2 ^ 60 + 2 ^ 30) :=
  ⟨le_rfl, by decide, oversized_value_isolated [1] [2] (2 ^ 30) le_rfl (by decide)⟩

example : Simple8bEncode (List.replicate 240 0) = [0] := by decide
example : Simple8bDecode [0] 240 = List.replicate 240 0 := by decide
example : Simple8bDecode (Simple8bEncode [5, 3, 2 ^ 59]) 3 = [5, 3, 2 ^ 59] := by decide
example : DeltaDecode (DeltaEncode [10, 12, 11]) = [10, 12, 11] := by decide
example : DeltaEncode [10, 12, 11] = [10, 2, (2 ^ 64) - 1] := by decide
example : ZigZagEncode [0, 2 ^ 64 - 1, 1, 2 ^ 64 - 2] = [0, 1, 2, 3] := by decide
example : ZigZagDecode (ZigZagEncode [7, 2 ^ 64 - 7]) = [7, 2 ^ 64 - 7] := by decide
example : ZigZagDecode (ZigZagEncode [2 ^ 62]) = [2 ^ 63 + 2 ^ 62] := by decide
